import Mathlib

/-!
# Verification of the LZ77 match-finding stage (src/src/lz77.rs)

A shallow embedding of the LZ77 compressor core in `src/src/lz77.rs`:
the hash-chain match finder `longest_match`, the lazy-matching chunk
processor `process_chunk`, the block/window driver `lz77_compress_block`,
the buffer management (`create_buffer`, `slide_buffer`) and the test
decoder `decompress_lz77`.

Modelling conventions:
* Bytes are `Nat` (the Rust code uses `u8`; byte values are only moved and
  compared, never subject to arithmetic overflow, so no reduction mod 256
  is needed anywhere in the modelled code).
* Rust `usize` values are `Nat`; subtractions that the surrounding code
  guarantees not to underflow are Nat-truncating subtraction.
* Rust slice indexing (which panics out of bounds) is modelled with
  `List.getElem?`; functions that can panic on an out-of-bounds index
  return `Option` and yield `none` exactly where the Rust code would
  panic.  Iterator reads that cannot panic (`Iterator::next`) are
  modelled with `List.getElem?` matched against `some`/`none` for the
  yielded/exhausted cases.
* `longest_match` and `process_chunk` additionally return bookkeeping
  data (chain-hop count, visited chain positions, hashed positions,
  match-searched positions).  These extra fields are write-only
  instrumentation: the modelled control flow never reads them.
-/

set_option maxRecDepth 10000

/-! ## Constants

`WINDOW_SIZE` comes from `chained_hash_table`, `MAX_MATCH`/`MIN_MATCH`
from `huffman_table`; neither module is part of the given sources, but the
spec fixes the values: `WINDOW_SIZE = 32768`, `MIN_MATCH = 3`,
`MAX_MATCH = 258`.  The source's `DEFAULT_WINDOW_SIZE` (lz77.rs:181) is
also 32768 and is modelled by the same constant. -/

def WINDOW_SIZE : Nat := 32768

def MAX_MATCH : Nat := 258

def MIN_MATCH : Nat := 3

/-! ## The chained hash table (external collaborator) -/

/-- Modelled from the spec: the hash-chain index `ChainedHashTable` of
`chained_hash_table` is not among the given sources.  Per spec §2/§6 it
maps a position to the most recent earlier position with the same
short-byte-sequence rolling hash: `head` holds the most recent position
per hash bucket, `prev` the per-position chain link, and a rolling hash
value keyed by a fixed small window of bytes selects the current bucket.
Buckets and links are total functions defaulting to 0 ("no entry"). -/
structure ChainedHashTable where
  hashv : Nat
  headf : Nat → Nat
  prevf : Nat → Nat

/-- Modelled from the spec: the rolling hash is "keyed by a fixed small
window of bytes ending at `byte`".  We use the standard shift-and-mask
rolling hash over a 3-byte window (shift 5, 15-bit table), which realises
exactly that contract; no claim depends on the concrete hash function. -/
def update_hash (h b : Nat) : Nat := (Nat.xor (h * 32) b) % 32768

/-- Modelled from the spec: `add(position, byte)` records `position` under
the rolling hash updated with `byte`: the old bucket head becomes
`position`'s chain link and `position` becomes the bucket head. -/
def ChainedHashTable.add_hash_value (t : ChainedHashTable) (pos b : Nat) :
    ChainedHashTable :=
  ⟨update_hash t.hashv b,
   fun x => if x = update_hash t.hashv b then pos else t.headf x,
   fun x => if x = pos then t.headf (update_hash t.hashv b) else t.prevf x⟩

/-- Modelled from the spec: `current_head()` returns the head of the
bucket selected by the current rolling hash. -/
def ChainedHashTable.current_head (t : ChainedHashTable) : Nat :=
  t.headf t.hashv

/-- Modelled from the spec: `previous(position)` returns the prior chain
entry (0 if none). -/
def ChainedHashTable.get_prev (t : ChainedHashTable) (p : Nat) : Nat :=
  t.prevf p

/-- Modelled from the spec: `slide(window_size)` rebases all stored
positions down by `window_size`, discarding any that fall below zero.
Keys of the per-position links are rebased with their values. -/
def ChainedHashTable.slide (t : ChainedHashTable) (n : Nat) : ChainedHashTable :=
  ⟨t.hashv,
   fun x => if n ≤ t.headf x then t.headf x - n else 0,
   fun x => if n ≤ t.prevf (x + n) then t.prevf (x + n) - n else 0⟩

/-- Modelled from the spec: the session state is "created once from the
first two bytes of input (needed to seed the index's rolling hash)". -/
def ChainedHashTable.from_starting_values (b0 b1 : Nat) : ChainedHashTable :=
  ⟨update_hash (update_hash 0 b0) b1, fun _ => 0, fun _ => 0⟩

/-! ## get_match_length (lz77.rs:90) -/

/-- Worker for `get_match_length`: the common-prefix count of
`data[current_pos..]` and `data[pos_to_check..]`, starting at offset `n`,
with `fuel = MAX_MATCH - n` enforcing the `n < MAX_MATCH` bound of the
source's `take_while`.  The zip of the two suffixes ends as soon as either
index runs off the slice, which `getElem? = none` captures. -/
def match_length_from (data : List Nat) (current_pos pos_to_check : Nat) :
    Nat → Nat → Nat
  | n, 0 => n
  | n, fuel+1 =>
    match data[current_pos + n]?, data[pos_to_check + n]? with
    | some a, some b =>
      if a = b then match_length_from data current_pos pos_to_check (n+1) fuel
      else n
    | _, _ => n

/-- `get_match_length` (lz77.rs:90): number of equal bytes at and after
`current_pos` compared to `pos_to_check`, capped at `MAX_MATCH`. -/
def get_match_length (data : List Nat) (current_pos pos_to_check : Nat) : Nat :=
  match_length_from data current_pos pos_to_check 0 MAX_MATCH

/-! ## longest_match (lz77.rs:102) -/

/-- Result of `longest_match`, instrumented: `length`/`dist` are the
returned pair; `hops` counts the executions of
`current_head = hash_table.get_prev(current_head)` inside the chain-walk
loop, and `vis` lists the chain positions whose loop body ran (in visit
order).  `hops` and `vis` are write-only instrumentation. -/
structure LMRes where
  length : Nat
  dist : Nat
  hops : Nat
  vis : List Nat
deriving DecidableEq, Repr

/-- The chain-walk loop of `longest_match` (lz77.rs:140-162).  `fuel`
models the `iters <= 4096` guard: the Rust loop body can run with
`iters = 0, …, 4096`, i.e. at most 4097 times, so the initial fuel is
4097 and each body execution consumes one unit.  The two slice reads
`data[position + best_length]` / `data[current_head + best_length]`
panic out of bounds, hence `none` there. -/
def lm_loop (data : List Nat) (pf : Nat → Nat)
    (position limit max_length sh : Nat) :
    Nat → Nat → Nat → Nat → Nat → List Nat → Option LMRes
  | 0, _, bl, bd, hops, vis => some ⟨bl, bd, hops, vis⟩
  | fuel+1, c, bl, bd, hops, vis =>
    if limit ≤ c ∧ c ≠ 0 then
      match data[position + bl]?, data[c + bl]? with
      | some a, some b =>
        let st : Nat × Nat × Bool :=
          if a = b then
            let len := get_match_length data position c
            if bl < len then (len, position - c, decide (len = max_length))
            else (bl, bd, false)
          else (bl, bd, false)
        if st.2.2 then some ⟨st.1, st.2.1, hops, vis ++ [c]⟩
        else
          let c2 := pf c
          if c2 = sh then some ⟨st.1, st.2.1, hops + 1, vis ++ [c]⟩
          else lm_loop data pf position limit max_length sh fuel c2 st.1 st.2.1
            (hops + 1) (vis ++ [c])
      | _, _ => none
    else some ⟨bl, bd, hops, vis⟩

/-- `longest_match` (lz77.rs:102): try to find a match at `position`
longer than `prev_length`; `(0, 0)` if none (early guards at
lz77.rs:108-116, head-cycle guard at lz77.rs:127-132, final filter at
lz77.rs:164-168). -/
def longest_match (data : List Nat) (t : ChainedHashTable)
    (position prev_length : Nat) : Option LMRes :=
  if position = 0 ∨ MAX_MATCH ≤ prev_length then some ⟨0, 0, 0, []⟩
  else if data.length ≤ position + prev_length then some ⟨0, 0, 0, []⟩
  else
    let limit := if WINDOW_SIZE < position then position - WINDOW_SIZE else 0
    let max_length := min (data.length - position) MAX_MATCH
    let sh := t.get_prev t.current_head
    if sh = t.current_head then some ⟨0, 0, 0, []⟩
    else
      match lm_loop data t.prevf position limit max_length sh 4097 sh
          prev_length 0 0 [] with
      | none => none
      | some r =>
        if prev_length < r.length then some r else some ⟨0, 0, r.hops, r.vis⟩

/-- The early-exit guards of `longest_match` at lz77.rs:108-116: `true`
iff execution proceeds past them to the chain-walk setup. -/
def lm_reaches_walk (data : List Nat) (position prev_length : Nat) : Bool :=
  decide (¬(position = 0 ∨ MAX_MATCH ≤ prev_length ∨
    data.length ≤ position + prev_length))

/-! ## Tokens and the token sink -/

/-- `LDPair` (lz77.rs:61): a value of the compressed stream before
Huffman coding. -/
inductive LDPair where
  | Literal : Nat → LDPair
  | Length : Nat → LDPair
  | Distance : Nat → LDPair
  | EndOfBlock : LDPair
deriving DecidableEq, Repr

/-! The token sink (`OutputWriter`/`FixedWriter` of `output_writer`, not
among the given sources) is modelled from the spec §6 as a token list:
`write_literal(b)` appends `Literal b`, `write_length_distance(l, d)`
appends `Length l` then `Distance d`, `write_end_of_block()` appends
`EndOfBlock`.  The rolling-checksum collaborator is inert (its update
calls in lz77.rs are commented out), so it is not modelled. -/

/-- Accumulated effects of `process_chunk`: emitted tokens and the
updated hash table, plus write-only instrumentation `hashed` (positions
passed to `add_hash_value`) and `searched` (positions passed to
`longest_match`). -/
structure PCAcc where
  tokens : List LDPair
  ht : ChainedHashTable
  hashed : List Nat
  searched : List Nat

/-! ## process_chunk (lz77.rs:187) -/

/-- The skip loop inside `process_chunk`'s match branch
(lz77.rs:227-238): advance over `k = prev_length - 2` already-matched
bytes, adding each one's hash while the chunk (`pos < endc`, the `taker`)
and the hash lookahead (`data[pos + 2]` exists, the `hash_taker`) both
yield.  Returns the updated table and hashed-positions list. -/
def add_hash_taken (data : List Nat) (endc : Nat) :
    ChainedHashTable → List Nat → Nat → Nat → ChainedHashTable × List Nat
  | t, hs, _, 0 => (t, hs)
  | t, hs, pos, k+1 =>
    if pos < endc then
      match data[pos + 2]? with
      | some b =>
        add_hash_taken data endc (t.add_hash_value pos b) (hs ++ [pos])
          (pos + 1) k
      | none => (t, hs)
    else (t, hs)

/-- The main loop of `process_chunk` (lz77.rs:206-267).  One call per
`insert_it.next()`: `pos` is the absolute position (`n + start`), `pB`,
`pL`, `pD` are `prev_byte`, `prev_length`, `prev_distance`, `add` the
pending-literal flag.  The hash lookahead `hash_it` yields exactly while
`pos + 2 < data.length`.  `fuel` only bounds the number of loop entries
(each entry advances `pos` by at least 1); `none` on exhaustion is
unreachable when `fuel ≥ endc - pos + 1`. -/
def process_chunk_loop (data : List Nat) (endc : Nat) :
    Nat → Nat → Nat → Nat → Nat → Bool → PCAcc → Option PCAcc
  | 0, _, _, _, _, _, _ => none
  | fuel+1, pos, pB, pL, pD, add, ⟨ts, t, hs, ss⟩ =>
    if pos < endc then
      match data[pos + 2]? with
      | some hb =>
        let t1 := t.add_hash_value pos hb
        match longest_match (data.take endc) t1 pos pL with
        | none => none
        | some r =>
          if r.length ≤ pL ∧ MIN_MATCH ≤ pL then
            let s2 := add_hash_taken data endc t1 (hs ++ [pos])
              (pos + 1) (pL - 2)
            process_chunk_loop data endc fuel (pos + 1 + (pL - 2))
              (data.getD pos 0) r.length r.dist false
              ⟨ts ++ [LDPair.Length pL, LDPair.Distance pD],
               s2.1, s2.2, ss ++ [pos]⟩
          else if add then
            process_chunk_loop data endc fuel (pos + 1)
              (data.getD pos 0) r.length r.dist true
              ⟨ts ++ [LDPair.Literal pB], t1, hs ++ [pos], ss ++ [pos]⟩
          else
            process_chunk_loop data endc fuel (pos + 1)
              (data.getD pos 0) r.length r.dist true
              ⟨ts, t1, hs ++ [pos], ss ++ [pos]⟩
      | none =>
        process_chunk_loop data endc fuel (pos + 1) pB pL pD false
          ⟨(if add then ts ++ [LDPair.Literal pB] else ts) ++
            [LDPair.Literal (data.getD pos 0)], t, hs, ss⟩
    else
      some ⟨if add then ts ++ [LDPair.Literal pB] else ts, t, hs, ss⟩

/-- `process_chunk` (lz77.rs:187): clamp `end` to the data length
(lz77.rs:193), then run the lazy-matching loop over `[start, endc)`.
The slice constructions `&data[start..end]` and `&data[start + 2..]`
panic unless `start ≤ endc` and `start + 2 ≤ data.length`. -/
def process_chunk (data : List Nat) (start endr : Nat)
    (t : ChainedHashTable) : Option PCAcc :=
  let endc := min data.length endr
  if start ≤ endc ∧ start + 2 ≤ data.length then
    process_chunk_loop data endc (endc - start + 1) start 0 (MIN_MATCH - 1) 0
      false ⟨[], t, [], []⟩
  else none

/-! ## Buffer management and the block driver (lz77.rs:46-341) -/

/-- `create_buffer` (lz77.rs:46). -/
def create_buffer (data : List Nat) : List Nat :=
  data.take (min (WINDOW_SIZE * 2 + 2) data.length)

/-- `slide_buffer` (lz77.rs:51): copy the upper `WINDOW_SIZE` bytes into
the lower half, then overwrite the upper half's first `d.length` bytes
with `d`. -/
def slide_buffer (buffer d : List Nat) : List Nat :=
  (buffer.drop WINDOW_SIZE).take WINDOW_SIZE ++ d ++
    buffer.drop (WINDOW_SIZE + d.length)

/-- `LZ77State` (lz77.rs:12). -/
structure LZ77State where
  hash_table : ChainedHashTable
  current_start : Nat
  is_first_window : Bool
  is_last_block : Bool

/-- `LZ77State::new` (lz77.rs:33): seed the hash table from the first two
bytes. -/
def LZ77State.new (data : List Nat) : LZ77State :=
  ⟨ChainedHashTable.from_starting_values (data.getD 0 0) (data.getD 1 0),
   0, true, false⟩

/-- `lz77_compress_block` (lz77.rs:272): process one block, returning the
updated state, the (possibly slid) buffer and the tokens written by this
call.  The Rust `for _ in 0..1 { … }` loop in the non-first-window branch
runs its body exactly once (the trailing `if !next_block_merge break` can
never cause a second iteration), so that branch is modelled as the body
once. -/
def lz77_compress_block (data : List Nat) (st : LZ77State)
    (buffer : List Nat) : Option (LZ77State × List Nat × List LDPair) :=
  let next_block_merge :=
    WINDOW_SIZE < data.length - st.current_start ∧
      data.length - st.current_start - WINDOW_SIZE < 500
  if st.is_first_window then
    let first_chunk_end :=
      if next_block_merge then data.length else min WINDOW_SIZE data.length
    match process_chunk buffer 0 first_chunk_end st.hash_table with
    | none => none
    | some r =>
      some (⟨r.ht, st.current_start + first_chunk_end, false,
             st.is_last_block || decide (data.length ≤ first_chunk_end)⟩,
            buffer, r.tokens ++ [LDPair.EndOfBlock])
  else
    let start := st.current_start
    let slice_len := data.length - (start - WINDOW_SIZE)
    let endr := min (WINDOW_SIZE * 2) slice_len
    match process_chunk buffer WINDOW_SIZE endr st.hash_table with
    | none => none
    | some r =>
      if slice_len ≤ endr then
        some (⟨r.ht, start, false, true⟩, buffer,
              r.tokens ++ [LDPair.EndOfBlock])
      else
        let cs2 := start + WINDOW_SIZE
        let end2 := min (cs2 + WINDOW_SIZE + 2) data.length
        some (⟨r.ht.slide WINDOW_SIZE, cs2, false, st.is_last_block⟩,
              slide_buffer buffer ((data.drop cs2).take (end2 - cs2)),
              r.tokens ++ [LDPair.EndOfBlock])

/-- The `while !state.is_last_block` loop of `lz77_compress`
(lz77.rs:354-356), with fuel bounding the number of block calls.  `none`
on fuel exhaustion is unreachable for the fuel chosen below. -/
def lz77_compress_loop (data : List Nat) :
    Nat → LZ77State → List Nat → List LDPair → Option (List LDPair)
  | 0, st, _, ts => if st.is_last_block then some ts else none
  | fuel+1, st, buffer, ts =>
    if st.is_last_block then some ts
    else
      match lz77_compress_block data st buffer with
      | none => none
      | some r => lz77_compress_loop data fuel r.1 r.2.1 (ts ++ r.2.2)

/-- `lz77_compress` (lz77.rs:348): compress a slice with the fixed
writer; `some tokens` on success (the Rust function returns
`Some(w.buffer)`; `none` here marks a panic or fuel exhaustion, both
proved unreachable for inputs of length ≥ 2). -/
def lz77_compress (data : List Nat) : Option (List LDPair) :=
  lz77_compress_loop data (data.length + 2) (LZ77State.new data)
    (create_buffer data) []

/-! ## The test decoder (lz77.rs:364) and stream validators -/

/-- The copy loop of the test decoder's `Distance` arm (lz77.rs:373-378):
append `n` bytes read one at a time from the growing output starting at
absolute index `idx` (overlapping copies re-read freshly written bytes). -/
def lz_copy : List Nat → Nat → Nat → List Nat
  | out, _, 0 => out
  | out, idx, n+1 => lz_copy (out ++ [out.getD idx 0]) (idx + 1) n

/-- The token loop of `decompress_lz77` (lz77.rs:364-383): `ll` is
`last_length`. -/
def decompress_lz77_loop : List LDPair → Nat → List Nat → List Nat
  | [], _, out => out
  | LDPair.Literal b :: r, ll, out => decompress_lz77_loop r ll (out ++ [b])
  | LDPair.Length l :: r, _, out => decompress_lz77_loop r l out
  | LDPair.Distance d :: r, ll, out =>
    decompress_lz77_loop r ll (lz_copy out (out.length - d) ll)
  | LDPair.EndOfBlock :: r, ll, out => decompress_lz77_loop r ll out

/-- `decompress_lz77` (lz77.rs:364): replay a token stream. -/
def decompress_lz77 (ts : List LDPair) : List Nat :=
  decompress_lz77_loop ts 0 []

/-- Stream validator for the spec obligations on token values and
pairing: scans a stream left to right tracking the number of bytes
decoded so far.  A `Length l` must be immediately followed by a
`Distance d` with `MIN_MATCH ≤ l ≤ MAX_MATCH`, `1 ≤ d ≤ WINDOW_SIZE` and
`d` not exceeding the bytes already decoded; a `Distance` may not appear
otherwise.  Returns the final decoded count on success. -/
def tokens_valid_from : List LDPair → Nat → Option Nat
  | [], c => some c
  | LDPair.Literal _ :: r, c => tokens_valid_from r (c + 1)
  | LDPair.Length l :: LDPair.Distance d :: r, c =>
    if MIN_MATCH ≤ l ∧ l ≤ MAX_MATCH ∧ 1 ≤ d ∧ d ≤ WINDOW_SIZE ∧ d ≤ c then
      tokens_valid_from r (c + l)
    else none
  | LDPair.Length _ :: _, _ => none
  | LDPair.Distance _ :: _, _ => none
  | LDPair.EndOfBlock :: r, c => tokens_valid_from r c

/-- Pairing check alone: every `Length` immediately followed by a
`Distance`, every `Distance` immediately preceded by its `Length` (so no
`EndOfBlock` can separate a pair). -/
def well_paired : List LDPair → Bool
  | [] => true
  | LDPair.Length _ :: LDPair.Distance _ :: r => well_paired r
  | LDPair.Length _ :: _ => false
  | LDPair.Distance _ :: _ => false
  | _ :: r => well_paired r

/-- Number of end-of-block markers in a stream (= number of blocks). -/
def count_eob (ts : List LDPair) : Nat :=
  ts.countP (fun t => decide (t = LDPair.EndOfBlock))

/-! ## List access helpers -/

theorem getD_of_getElem? {l : List Nat} {i x : Nat} (h : l[i]? = some x) :
    l.getD i 0 = x := by
  rw [List.getD_eq_getElem?_getD, h]; rfl

theorem getElem?_eq_some_getD {l : List Nat} {i : Nat} (h : i < l.length) :
    l[i]? = some (l.getD i 0) := by
  rw [List.getElem?_eq_getElem h, List.getD_eq_getElem?_getD,
    List.getElem?_eq_getElem h]; rfl

theorem lt_length_of_getElem? {l : List Nat} {i x : Nat} (h : l[i]? = some x) :
    i < l.length := by
  rcases List.getElem?_eq_some_iff.mp h with ⟨hlt, _⟩
  exact hlt

theorem length_le_of_getElem?_none {l : List Nat} {i : Nat} (h : l[i]? = none) :
    l.length ≤ i := List.getElem?_eq_none_iff.mp h

theorem getD_append_left {l m : List Nat} {i : Nat} (h : i < l.length) :
    (l ++ m).getD i 0 = l.getD i 0 := by
  rw [List.getD_eq_getElem?_getD, List.getD_eq_getElem?_getD,
    List.getElem?_append, if_pos h]

theorem getD_append_right {l m : List Nat} {i : Nat} (h : l.length ≤ i) :
    (l ++ m).getD i 0 = m.getD (i - l.length) 0 := by
  rw [List.getD_eq_getElem?_getD, List.getD_eq_getElem?_getD,
    List.getElem?_append, if_neg (by omega)]

theorem getD_take_lt {l : List Nat} {i n : Nat} (h : i < n) :
    (l.take n).getD i 0 = l.getD i 0 := by
  rw [List.getD_eq_getElem?_getD, List.getD_eq_getElem?_getD,
    List.getElem?_take, if_pos h]

theorem getElem?_take_eq {l : List Nat} {i n : Nat} (h : i < n) :
    (l.take n)[i]? = l[i]? := by
  rw [List.getElem?_take, if_pos h]

theorem getD_drop {l : List Nat} {n i : Nat} :
    (l.drop n).getD i 0 = l.getD (n + i) 0 := by
  rw [List.getD_eq_getElem?_getD, List.getD_eq_getElem?_getD,
    List.getElem?_drop]

/-! ## Byte slices of the input -/

/-- The sublist `data[a..b)` (empty when `b ≤ a`, truncated at the data
end). -/
def sliceD (data : List Nat) (a b : Nat) : List Nat :=
  (data.drop a).take (b - a)

theorem sliceD_length {data : List Nat} {a b : Nat} (hb : b ≤ data.length) :
    (sliceD data a b).length = b - a := by
  simp [sliceD, List.length_take, List.length_drop]
  omega

theorem sliceD_nil {data : List Nat} {a b : Nat} (h : b ≤ a) :
    sliceD data a b = [] := by
  simp [sliceD, Nat.sub_eq_zero_of_le h]

theorem sliceD_getD {data : List Nat} {a b k : Nat} (hk : k < b - a) :
    (sliceD data a b).getD k 0 = data.getD (a + k) 0 := by
  rw [sliceD, getD_take_lt hk, getD_drop]

theorem sliceD_cons {data : List Nat} {a b : Nat} (hab : a < b)
    (hb : a < data.length) :
    sliceD data a b = data.getD a 0 :: sliceD data (a + 1) b := by
  apply List.ext_getElem?
  intro i
  rcases Nat.eq_zero_or_pos i with hi | hi
  · subst hi
    have h1 : (sliceD data a b)[0]? = some ((sliceD data a b).getD 0 0) := by
      apply getElem?_eq_some_getD
      simp [sliceD, List.length_take, List.length_drop]
      omega
    rw [h1, sliceD_getD (by omega)]
    simp
  · obtain ⟨j, rfl⟩ : ∃ j, i = j + 1 := ⟨i - 1, by omega⟩
    rw [List.getElem?_cons_succ]
    by_cases hj : j + 1 < b - a
    · have hj2 : j < b - (a + 1) := by omega
      by_cases hlen : a + 1 + j < data.length
      · rw [getElem?_eq_some_getD, getElem?_eq_some_getD, sliceD_getD hj,
          sliceD_getD hj2]
        · rw [show a + 1 + j = a + (j + 1) by omega]
        · simp [sliceD, List.length_take, List.length_drop]; omega
        · simp [sliceD, List.length_take, List.length_drop]; omega
      · rw [List.getElem?_eq_none, List.getElem?_eq_none]
        · simp [sliceD, List.length_take, List.length_drop]; omega
        · simp [sliceD, List.length_take, List.length_drop]; omega
    · rw [List.getElem?_eq_none, List.getElem?_eq_none]
      · simp [sliceD, List.length_take, List.length_drop]; omega
      · simp [sliceD, List.length_take, List.length_drop]; omega

theorem sliceD_append {data : List Nat} {a b c : Nat} (hab : a ≤ b)
    (hbc : b ≤ c) :
    sliceD data a b ++ sliceD data b c = sliceD data a c := by
  unfold sliceD
  rw [show c - a = (b - a) + (c - b) by omega, List.take_add]
  congr 1
  rw [List.drop_drop, show a + (b - a) = b by omega]

/-! ## Properties of get_match_length -/

theorem match_length_from_lower (data : List Nat) (cp pc : Nat) :
    ∀ fuel n, n ≤ match_length_from data cp pc n fuel := by
  intro fuel
  induction fuel with
  | zero => intro n; simp [match_length_from]
  | succ fuel ih =>
    intro n
    rw [match_length_from]
    rcases hA : data[cp + n]? with _ | a
    · simp
    rcases hB : data[pc + n]? with _ | b
    · simp
    by_cases hab : a = b
    · simp only [hab, if_pos rfl]
      exact le_trans (by omega) (ih (n + 1))
    · simp [hab]

theorem match_length_from_upper (data : List Nat) (cp pc : Nat) :
    ∀ fuel n, match_length_from data cp pc n fuel ≤ n + fuel := by
  intro fuel
  induction fuel with
  | zero => intro n; simp [match_length_from]
  | succ fuel ih =>
    intro n
    rw [match_length_from]
    rcases hA : data[cp + n]? with _ | a
    · simp
    rcases hB : data[pc + n]? with _ | b
    · simp
    by_cases hab : a = b
    · simp only [hab, if_pos rfl]
      exact le_trans (ih (n + 1)) (by omega)
    · simp [hab]

theorem match_length_from_agree (data : List Nat) (cp pc : Nat) :
    ∀ fuel n k, n ≤ k → k < match_length_from data cp pc n fuel →
      cp + k < data.length ∧ pc + k < data.length ∧
        data.getD (cp + k) 0 = data.getD (pc + k) 0 := by
  intro fuel
  induction fuel with
  | zero =>
    intro n k hnk hk
    rw [match_length_from] at hk
    omega
  | succ fuel ih =>
    intro n k hnk hk
    rw [match_length_from] at hk
    rcases hA : data[cp + n]? with _ | a
    · rw [hA] at hk; simp at hk; omega
    rcases hB : data[pc + n]? with _ | b
    · rw [hA, hB] at hk; simp at hk; omega
    rw [hA, hB] at hk
    by_cases hab : a = b
    · simp only [hab, if_pos rfl] at hk
      rcases Nat.eq_or_lt_of_le hnk with rfl | hlt
      · refine ⟨lt_length_of_getElem? hA, lt_length_of_getElem? hB, ?_⟩
        rw [getD_of_getElem? hA, getD_of_getElem? hB, hab]
      · exact ih (n + 1) k (by omega) hk
    · simp [hab] at hk; omega

theorem get_match_length_le (data : List Nat) (cp pc : Nat) :
    get_match_length data cp pc ≤ MAX_MATCH :=
  le_trans (match_length_from_upper data cp pc MAX_MATCH 0) (by omega)

theorem get_match_length_agree (data : List Nat) (cp pc k : Nat)
    (hk : k < get_match_length data cp pc) :
    cp + k < data.length ∧ pc + k < data.length ∧
      data.getD (cp + k) 0 = data.getD (pc + k) 0 :=
  match_length_from_agree data cp pc MAX_MATCH 0 k (Nat.zero_le k) hk

/-- If the new and candidate bytes differ at offset `bl`, the candidate's
match length cannot exceed `bl` (the source's cheap-rejection prune). -/
theorem get_match_length_prune (data : List Nat) (cp pc bl : Nat)
    (hne : data.getD (cp + bl) 0 ≠ data.getD (pc + bl) 0) :
    get_match_length data cp pc ≤ bl := by
  by_contra h
  exact hne (get_match_length_agree data cp pc bl (by omega)).2.2

/-- `get_match_length` respects the end of the data: a nonzero result
keeps both compared ranges inside the list. -/
theorem get_match_length_end (data : List Nat) (cp pc : Nat) :
    get_match_length data cp pc = 0 ∨
      (cp + get_match_length data cp pc ≤ data.length ∧
       pc + get_match_length data cp pc ≤ data.length) := by
  rcases Nat.eq_zero_or_pos (get_match_length data cp pc) with h | h
  · exact Or.inl h
  · right
    have := get_match_length_agree data cp pc (get_match_length data cp pc - 1)
      (by omega)
    omega

/-! ## The match candidate contract -/

/-- A valid match candidate at `pos` in `data`: length `L` at backward
distance `d`.  Captures everything `longest_match` guarantees about a
returned pair: the distance is at least 1 and stays inside the window and
strictly inside the already-seen prefix, the matched range lies inside
`data`, the length is at most `MAX_MATCH`, and the `L` bytes at `pos`
equal the `L` bytes at `pos - d`. -/
def GoodCand (data : List Nat) (pos L d : Nat) : Prop :=
  1 ≤ d ∧ d + 1 ≤ pos ∧ d ≤ WINDOW_SIZE ∧ pos + L ≤ data.length ∧
    L ≤ MAX_MATCH ∧
    ∀ k, k < L → data.getD (pos + k) 0 = data.getD (pos - d + k) 0

/-! ## The chain-walk invariant -/

theorem find?_append_of_all_false {p : Nat → Bool} {A : List Nat}
    (B : List Nat) (h : ∀ x ∈ A, p x = false) :
    (A ++ B).find? p = B.find? p := by
  rw [List.find?_append]
  have h2 : A.find? p = none := List.find?_eq_none.mpr (by
    intro x hx
    simp [h x hx])
  rw [h2, Option.none_or]

theorem find?_append_of_some {p : Nat → Bool} {A : List Nat} {x : Nat}
    (B : List Nat) (h : A.find? p = some x) :
    (A ++ B).find? p = some x := by
  rw [List.find?_append, h]
  rfl

/-- Invariant of the chain walk: either no candidate improving on the
baseline `pl` has been seen (`bl` still equals `pl`, `bd = 0`, and every
visited chain position matches at most `pl` bytes), or the current best
`(bl, bd)` is a valid candidate strictly better than `pl`, it is maximal
among the visited positions, and the first visited position achieving it
is exactly `pos - bd`. -/
def LMInv (data : List Nat) (pos pl bl bd : Nat) (vis : List Nat) : Prop :=
  (bl = pl ∧ bd = 0 ∧ ∀ x ∈ vis, get_match_length data pos x ≤ pl) ∨
  (pl < bl ∧ GoodCand data pos bl bd ∧
    (∀ x ∈ vis, get_match_length data pos x ≤ bl) ∧
    vis.find? (fun x => decide (bl ≤ get_match_length data pos x)) =
      some (pos - bd))


theorem lm_loop_spec (data : List Nat) (pf : Nat → Nat)
    (pos limit maxLen sh pl : Nat)
    (hpf : ∀ k, pf k < pos ∨ pf k = 0)
    (hwin : pos ≤ limit + WINDOW_SIZE)
    (hml : maxLen = min (data.length - pos) MAX_MATCH)
    (hpos : pos < data.length) :
    ∀ fuel c bl bd hops vis, c < pos → bl < maxLen →
      LMInv data pos pl bl bd vis →
      ∃ r, lm_loop data pf pos limit maxLen sh fuel c bl bd hops vis = some r ∧
        bl ≤ r.length ∧ r.length ≤ maxLen ∧
        LMInv data pos pl r.length r.dist r.vis := by
  intro fuel
  induction fuel with
  | zero =>
    intro c bl bd hops vis _ hbl hinv
    exact ⟨⟨bl, bd, hops, vis⟩, rfl, le_refl bl, le_of_lt hbl, hinv⟩
  | succ fuel ih =>
    intro c bl bd hops vis hc hbl hinv
    rw [lm_loop]
    by_cases hg : limit ≤ c ∧ c ≠ 0
    · rw [if_pos hg]
      have hposbl : pos + bl < data.length := by omega
      have hcbl : c + bl < data.length := by omega
      rw [getElem?_eq_some_getD hposbl, getElem?_eq_some_getD hcbl]
      have hpos2 : 2 ≤ pos := by
        rcases hg with ⟨_, hc0⟩
        omega
      have hnext : pf c < pos := by
        rcases hpf c with h | h <;> omega
      set a := data.getD (pos + bl) 0 with ha
      set b := data.getD (c + bl) 0 with hb
      set len := get_match_length data pos c with hlendef
      have hlen_max : len ≤ maxLen := by
        rcases get_match_length_end data pos c with h0 | ⟨h1, _⟩
        · omega
        · have := get_match_length_le data pos c
          omega
      have hkeep : len ≤ bl → LMInv data pos pl bl bd (vis ++ [c]) := by
        intro hle
        rcases hinv with ⟨h1, h2, h3⟩ | ⟨h1, h2, h3, h4⟩
        · refine Or.inl ⟨h1, h2, ?_⟩
          intro x hx
          rcases List.mem_append.mp hx with hx | hx
          · exact h3 x hx
          · rw [List.mem_singleton.mp hx]; omega
        · refine Or.inr ⟨h1, h2, ?_, ?_⟩
          · intro x hx
            rcases List.mem_append.mp hx with hx | hx
            · exact h3 x hx
            · rw [List.mem_singleton.mp hx]; exact hle
          · exact find?_append_of_some [c] h4
      have himp : bl < len →
          LMInv data pos pl len (pos - c) (vis ++ [c]) := by
        intro hlt
        have hlen1 : 1 ≤ len := by omega
        have hend : pos + len ≤ data.length := by
          rcases get_match_length_end data pos c with h0 | ⟨h1, _⟩
          · omega
          · exact h1
        have hgood : GoodCand data pos len (pos - c) := by
          refine ⟨by omega, by omega, by omega, hend,
            get_match_length_le data pos c, ?_⟩
          intro k hk
          have hagree := get_match_length_agree data pos c k hk
          have hcc : pos - (pos - c) = c := by omega
          rw [hcc]
          exact hagree.2.2
        refine Or.inr ⟨?_, hgood, ?_, ?_⟩
        · rcases hinv with ⟨h1, _, _⟩ | ⟨h1, _, _, _⟩ <;> omega
        · intro x hx
          rcases List.mem_append.mp hx with hx | hx
          · rcases hinv with ⟨h1, _, h3⟩ | ⟨_, _, h3, _⟩
            · have := h3 x hx; omega
            · have := h3 x hx; omega
          · rw [List.mem_singleton.mp hx]
        · have hvisf : ∀ x ∈ vis,
              (fun x => decide (len ≤ get_match_length data pos x)) x = false := by
            intro x hx
            rcases hinv with ⟨h1, _, h3⟩ | ⟨_, _, h3, _⟩
            · have := h3 x hx
              simp only [decide_eq_false_iff_not]
              omega
            · have := h3 x hx
              simp only [decide_eq_false_iff_not]
              omega
          rw [find?_append_of_all_false [c] hvisf]
          have hcc : pos - (pos - c) = c := by omega
          rw [hcc]
          simp [List.find?]
      by_cases hab : a = b
      · simp only [if_pos hab, ← hlendef]
        by_cases hup : bl < len
        · simp only [if_pos hup]
          by_cases hbrk : len = maxLen
          · rw [if_pos (decide_eq_true hbrk)]
            refine ⟨⟨len, pos - c, hops, vis ++ [c]⟩, rfl, le_of_lt hup,
              hlen_max, himp hup⟩
          · simp only [decide_eq_true_eq, if_neg hbrk]
            by_cases hc2 : pf c = sh
            · rw [if_pos hc2]
              exact ⟨⟨len, pos - c, hops + 1, vis ++ [c]⟩, rfl, le_of_lt hup,
                hlen_max, himp hup⟩
            · rw [if_neg hc2]
              obtain ⟨r, hr, hr1, hr2, hr3⟩ := ih (pf c) len (pos - c)
                (hops + 1) (vis ++ [c]) hnext (by omega) (himp hup)
              exact ⟨r, hr, by omega, hr2, hr3⟩
        · simp only [if_neg hup]
          by_cases hc2 : pf c = sh
          · rw [if_pos hc2]
            exact ⟨⟨bl, bd, hops + 1, vis ++ [c]⟩, rfl, le_refl bl,
              le_of_lt hbl, hkeep (by omega)⟩
          · rw [if_neg hc2]
            obtain ⟨r, hr, hr1, hr2, hr3⟩ := ih (pf c) bl bd
              (hops + 1) (vis ++ [c]) hnext hbl (hkeep (by omega))
            exact ⟨r, hr, hr1, hr2, hr3⟩
      · simp only [if_neg hab]
        have hle : len ≤ bl := get_match_length_prune data pos c bl hab
        by_cases hc2 : pf c = sh
        · rw [if_pos hc2]
          exact ⟨⟨bl, bd, hops + 1, vis ++ [c]⟩, rfl, le_refl bl,
            le_of_lt hbl, hkeep hle⟩
        · rw [if_neg hc2]
          obtain ⟨r, hr, hr1, hr2, hr3⟩ := ih (pf c) bl bd
            (hops + 1) (vis ++ [c]) hnext hbl (hkeep hle)
          exact ⟨r, hr, hr1, hr2, hr3⟩
    · rw [if_neg hg]
      exact ⟨⟨bl, bd, hops, vis⟩, rfl, le_refl bl, le_of_lt hbl, hinv⟩

/-- Hop counting and visit guards for the chain walk, with no hypotheses
on the hash chain: each loop-body execution performs exactly one hop and
consumes one unit of fuel, and every visited position passed the loop
guard. -/
theorem lm_loop_hops (data : List Nat) (pf : Nat → Nat)
    (pos limit maxLen sh : Nat) :
    ∀ fuel c bl bd hops vis r, (∀ x ∈ vis, limit ≤ x ∧ x ≠ 0) →
      lm_loop data pf pos limit maxLen sh fuel c bl bd hops vis = some r →
      r.hops ≤ hops + fuel ∧ ∀ x ∈ r.vis, limit ≤ x ∧ x ≠ 0 := by
  intro fuel
  induction fuel with
  | zero =>
    intro c bl bd hops vis r hvis h
    rw [lm_loop] at h
    cases h
    exact ⟨le_refl _, hvis⟩
  | succ fuel ih =>
    intro c bl bd hops vis r hvis h
    rw [lm_loop] at h
    by_cases hg : limit ≤ c ∧ c ≠ 0
    · rw [if_pos hg] at h
      have hvisc : ∀ x ∈ vis ++ [c], limit ≤ x ∧ x ≠ 0 := by
        intro x hx
        rcases List.mem_append.mp hx with hx | hx
        · exact hvis x hx
        · rw [List.mem_singleton.mp hx]; exact hg
      rcases hA : data[pos + bl]? with _ | a <;> rw [hA] at h
      · cases h
      rcases hB : data[c + bl]? with _ | b <;> rw [hB] at h
      · cases h
      simp only [] at h
      by_cases hst : (if a = b then
          (if bl < get_match_length data pos c then
            (get_match_length data pos c, pos - c,
              decide (get_match_length data pos c = maxLen))
          else (bl, bd, false))
        else (bl, bd, false)).2.2 = true
      · rw [if_pos hst] at h
        cases h
        exact ⟨by show hops ≤ hops + (fuel + 1); omega, hvisc⟩
      · rw [if_neg hst] at h
        by_cases hc2 : pf c = sh
        · rw [if_pos hc2] at h
          cases h
          exact ⟨by show hops + 1 ≤ hops + (fuel + 1); omega, hvisc⟩
        · rw [if_neg hc2] at h
          obtain ⟨h1, h2⟩ := ih (pf c) _ _ (hops + 1) (vis ++ [c]) r hvisc h
          exact ⟨by omega, h2⟩
    · rw [if_neg hg] at h
      cases h
      exact ⟨by show hops ≤ hops + (fuel + 1); omega, hvis⟩

/-- Under a well-formed chain (all links point strictly below the current
position, or to 0), `longest_match` succeeds and returns either the
no-improvement result `(0,0)` — in which case no visited chain position
matches more than `prev_length` bytes — or a valid candidate strictly
longer than `prev_length`, maximal among the visited chain positions,
whose distance points at the first visited position achieving that
length. -/
theorem longest_match_spec (data : List Nat) (t : ChainedHashTable)
    (pos pl : Nat) (hpf : ∀ k, t.prevf k < pos ∨ t.prevf k = 0) :
    ∃ r, longest_match data t pos pl = some r ∧
      ((r.length = 0 ∧ r.dist = 0 ∧
          ∀ x ∈ r.vis, get_match_length data pos x ≤ pl) ∨
       (pl < r.length ∧ GoodCand data pos r.length r.dist ∧
          (∀ x ∈ r.vis, get_match_length data pos x ≤ r.length) ∧
          r.vis.find? (fun x =>
              decide (r.length ≤ get_match_length data pos x)) =
            some (pos - r.dist))) := by
  rw [longest_match]
  by_cases g1 : pos = 0 ∨ MAX_MATCH ≤ pl
  · rw [if_pos g1]
    exact ⟨⟨0, 0, 0, []⟩, rfl, Or.inl ⟨rfl, rfl, by intro x hx; cases hx⟩⟩
  · rw [if_neg g1]
    by_cases g2 : data.length ≤ pos + pl
    · rw [if_pos g2]
      exact ⟨⟨0, 0, 0, []⟩, rfl, Or.inl ⟨rfl, rfl, by intro x hx; cases hx⟩⟩
    · rw [if_neg g2]
      simp only []
      by_cases g3 : t.get_prev t.current_head = t.current_head
      · rw [if_pos g3]
        exact ⟨⟨0, 0, 0, []⟩, rfl, Or.inl ⟨rfl, rfl, by intro x hx; cases hx⟩⟩
      · rw [if_neg g3]
        have hpos0 : pos ≠ 0 := by tauto
        have hplM : pl < MAX_MATCH := by omega
        have hsh : t.get_prev t.current_head < pos := by
          rcases hpf t.current_head with h | h
          · exact h
          · rw [ChainedHashTable.get_prev, h]; omega
        have hwin : pos ≤ (if WINDOW_SIZE < pos then pos - WINDOW_SIZE else 0) +
            WINDOW_SIZE := by
          split <;> omega
        obtain ⟨r0, hr0, hble, hmax, hinv⟩ := lm_loop_spec data t.prevf pos
          (if WINDOW_SIZE < pos then pos - WINDOW_SIZE else 0)
          (min (data.length - pos) MAX_MATCH)
          (t.get_prev t.current_head) pl hpf hwin rfl (by omega)
          4097 (t.get_prev t.current_head) pl 0 0 []
          hsh (by omega)
          (Or.inl ⟨rfl, rfl, by intro x hx; cases hx⟩)
        simp only [hr0]
        by_cases hfin : pl < r0.length
        · rw [if_pos hfin]
          refine ⟨r0, rfl, Or.inr ?_⟩
          rcases hinv with ⟨h1, _, _⟩ | ⟨h1, h2, h3, h4⟩
          · omega
          · exact ⟨h1, h2, h3, h4⟩
        · rw [if_neg hfin]
          refine ⟨⟨0, 0, r0.hops, r0.vis⟩, rfl, Or.inl ⟨rfl, rfl, ?_⟩⟩
          rcases hinv with ⟨h1, _, h3⟩ | ⟨h1, _, _, _⟩
          · intro x hx
            have := h3 x hx
            omega
          · omega

/-- Simplified form of the contract, used by the chunk processor. -/
theorem longest_match_basic (data : List Nat) (t : ChainedHashTable)
    (pos pl : Nat) (hpf : ∀ k, t.prevf k < pos ∨ t.prevf k = 0) :
    ∃ r, longest_match data t pos pl = some r ∧
      ((r.length = 0 ∧ r.dist = 0) ∨
       (pl < r.length ∧ GoodCand data pos r.length r.dist)) := by
  obtain ⟨r, hr, hspec⟩ := longest_match_spec data t pos pl hpf
  refine ⟨r, hr, ?_⟩
  rcases hspec with ⟨h1, h2, _⟩ | ⟨h1, h2, _, _⟩
  · exact Or.inl ⟨h1, h2⟩
  · exact Or.inr ⟨h1, h2⟩

/-- Every `longest_match` call performs at most 4097 chain hops, and
every chain position it visits lies at or above the window floor and is
nonzero. -/
theorem longest_match_hops (data : List Nat) (t : ChainedHashTable)
    (pos pl : Nat) (r : LMRes)
    (h : longest_match data t pos pl = some r) :
    r.hops ≤ 4097 ∧ ∀ x ∈ r.vis,
      (if WINDOW_SIZE < pos then pos - WINDOW_SIZE else 0) ≤ x ∧ x ≠ 0 := by
  rw [longest_match] at h
  by_cases g1 : pos = 0 ∨ MAX_MATCH ≤ pl
  · rw [if_pos g1] at h
    cases h
    exact ⟨by show (0:Nat) ≤ 4097; omega, by intro x hx; cases hx⟩
  · rw [if_neg g1] at h
    by_cases g2 : data.length ≤ pos + pl
    · rw [if_pos g2] at h
      cases h
      exact ⟨by show (0:Nat) ≤ 4097; omega, by intro x hx; cases hx⟩
    · rw [if_neg g2] at h
      simp only [] at h
      by_cases g3 : t.get_prev t.current_head = t.current_head
      · rw [if_pos g3] at h
        cases h
        exact ⟨by show (0:Nat) ≤ 4097; omega, by intro x hx; cases hx⟩
      · rw [if_neg g3] at h
        rcases h0 : lm_loop data t.prevf pos
            (if WINDOW_SIZE < pos then pos - WINDOW_SIZE else 0)
            (min (data.length - pos) MAX_MATCH)
            (t.get_prev t.current_head) 4097 (t.get_prev t.current_head)
            pl 0 0 [] with _ | r0
        · rw [h0] at h
          cases h
        · simp only [h0] at h
          obtain ⟨hh, hv⟩ := lm_loop_hops data t.prevf pos _ _ _ 4097 _ pl 0 0
            [] r0 (by intro x hx; cases hx) h0
          by_cases hfin : pl < r0.length
          · rw [if_pos hfin] at h
            cases h
            exact ⟨by omega, hv⟩
          · rw [if_neg hfin] at h
            cases h
            exact ⟨by show r0.hops ≤ 4097; omega, hv⟩

/-- With a strictly decreasing chain (every link points strictly below
its key, or to 0), the visited positions of the walk are strictly
decreasing: the first-encountered candidate of any given match length is
also the nearest (smallest-distance) one. -/
theorem lm_loop_chain (data : List Nat) (pf : Nat → Nat)
    (pos limit maxLen sh : Nat) (hdec : ∀ k, pf k < k ∨ pf k = 0) :
    ∀ fuel c bl bd hops vis r,
      List.Chain' (fun x y => y < x) (vis ++ [c]) →
      lm_loop data pf pos limit maxLen sh fuel c bl bd hops vis = some r →
      List.Chain' (fun x y => y < x) r.vis := by
  intro fuel
  induction fuel with
  | zero =>
    intro c bl bd hops vis r hch h
    rw [lm_loop] at h
    cases h
    exact (List.chain'_append.mp hch).1
  | succ fuel ih =>
    intro c bl bd hops vis r hch h
    rw [lm_loop] at h
    by_cases hg : limit ≤ c ∧ c ≠ 0
    · rw [if_pos hg] at h
      rcases hA : data[pos + bl]? with _ | a <;> rw [hA] at h
      · cases h
      rcases hB : data[c + bl]? with _ | b <;> rw [hB] at h
      · cases h
      simp only [] at h
      have hch2 : List.Chain' (fun x y => y < x) ((vis ++ [c]) ++ [pf c]) := by
        refine List.chain'_append.mpr ⟨hch, List.chain'_singleton _, ?_⟩
        intro x hx y hy
        rw [List.getLast?_concat] at hx
        simp only [List.head?, Option.mem_def, Option.some.injEq] at hx hy
        subst hx
        subst hy
        rcases hdec c with hd | hd
        · exact hd
        · rcases hg with ⟨_, hc0⟩
          omega
      by_cases hst : (if a = b then
          (if bl < get_match_length data pos c then
            (get_match_length data pos c, pos - c,
              decide (get_match_length data pos c = maxLen))
          else (bl, bd, false))
        else (bl, bd, false)).2.2 = true
      · rw [if_pos hst] at h
        cases h
        exact hch
      · rw [if_neg hst] at h
        by_cases hc2 : pf c = sh
        · rw [if_pos hc2] at h
          cases h
          exact hch
        · rw [if_neg hc2] at h
          exact ih (pf c) _ _ (hops + 1) (vis ++ [c]) r hch2 h
    · rw [if_neg hg] at h
      cases h
      exact (List.chain'_append.mp hch).1

/-- The three early-return guards at lz77.rs:108-116: when any of them
holds, `longest_match` returns `(0,0)` without reaching the chain walk;
`lm_reaches_walk` is their (definitional) complement. -/
theorem longest_match_early (data : List Nat) (t : ChainedHashTable)
    (pos pl : Nat)
    (h : pos = 0 ∨ MAX_MATCH ≤ pl ∨ data.length ≤ pos + pl) :
    longest_match data t pos pl = some ⟨0, 0, 0, []⟩ ∧
      lm_reaches_walk data pos pl = false := by
  constructor
  · rw [longest_match]
    by_cases g1 : pos = 0 ∨ MAX_MATCH ≤ pl
    · rw [if_pos g1]
    · rw [if_neg g1, if_pos (by tauto)]
  · simp only [lm_reaches_walk, decide_eq_false_iff_not]
    tauto

/-! ## Hash-table well-formedness -/

/-- All chain links and bucket heads of the table point strictly below
`p` (or to the null entry 0).  This is the state of the table before the
byte at position `p` is inserted; it holds for every table the driver
actually builds. -/
def HtPre (t : ChainedHashTable) (p : Nat) : Prop :=
  (∀ k, t.prevf k < p ∨ t.prevf k = 0) ∧ (∀ h, t.headf h < p ∨ t.headf h = 0)

theorem htpre_mono {t : ChainedHashTable} {p q : Nat} (h : HtPre t p)
    (hpq : p ≤ q) : HtPre t q := by
  refine ⟨fun k => ?_, fun x => ?_⟩
  · rcases h.1 k with h1 | h1
    · exact Or.inl (by omega)
    · exact Or.inr h1
  · rcases h.2 x with h1 | h1
    · exact Or.inl (by omega)
    · exact Or.inr h1

theorem htpre_init (b0 b1 p : Nat) :
    HtPre (ChainedHashTable.from_starting_values b0 b1) p :=
  ⟨fun _ => Or.inr rfl, fun _ => Or.inr rfl⟩

theorem htpre_add {t : ChainedHashTable} {p pos b : Nat} (h : HtPre t p)
    (hp : p ≤ pos) : HtPre (t.add_hash_value pos b) (pos + 1) := by
  refine ⟨fun k => ?_, fun x => ?_⟩
  · show (if k = pos then t.headf (update_hash t.hashv b) else t.prevf k) < pos + 1 ∨
      (if k = pos then t.headf (update_hash t.hashv b) else t.prevf k) = 0
    split
    · rcases h.2 (update_hash t.hashv b) with h1 | h1
      · exact Or.inl (by omega)
      · exact Or.inr h1
    · rcases h.1 k with h1 | h1
      · exact Or.inl (by omega)
      · exact Or.inr h1
  · show (if x = update_hash t.hashv b then pos else t.headf x) < pos + 1 ∨
      (if x = update_hash t.hashv b then pos else t.headf x) = 0
    split
    · exact Or.inl (by omega)
    · rcases h.2 x with h1 | h1
      · exact Or.inl (by omega)
      · exact Or.inr h1

/-- After inserting position `pos`, every chain link still points
strictly below `pos` (or to 0) — the hypothesis `longest_match` needs
when it is called right after the insertion. -/
theorem htpre_add_prevlt {t : ChainedHashTable} {p pos b : Nat}
    (h : HtPre t p) (hp : p ≤ pos) :
    ∀ k, (t.add_hash_value pos b).prevf k < pos ∨
      (t.add_hash_value pos b).prevf k = 0 := by
  intro k
  show (if k = pos then t.headf (update_hash t.hashv b) else t.prevf k) < pos ∨
    (if k = pos then t.headf (update_hash t.hashv b) else t.prevf k) = 0
  split
  · rcases h.2 (update_hash t.hashv b) with h1 | h1
    · exact Or.inl (by omega)
    · exact Or.inr h1
  · rcases h.1 k with h1 | h1
    · exact Or.inl (by omega)
    · exact Or.inr h1

theorem htpre_slide {t : ChainedHashTable} {p n : Nat} (h : HtPre t p) :
    HtPre (t.slide n) (p - n) := by
  refine ⟨fun k => ?_, fun x => ?_⟩
  · show (if n ≤ t.prevf (k + n) then t.prevf (k + n) - n else 0) < p - n ∨
      (if n ≤ t.prevf (k + n) then t.prevf (k + n) - n else 0) = 0
    split
    · rcases h.1 (k + n) with h1 | h1
      · rcases Nat.eq_zero_or_pos (t.prevf (k + n) - n) with h2 | h2
        · exact Or.inr h2
        · exact Or.inl (by omega)
      · omega
    · exact Or.inr rfl
  · show (if n ≤ t.headf x then t.headf x - n else 0) < p - n ∨
      (if n ≤ t.headf x then t.headf x - n else 0) = 0
    split
    · rcases h.2 x with h1 | h1
      · rcases Nat.eq_zero_or_pos (t.headf x - n) with h2 | h2
        · exact Or.inr h2
        · exact Or.inl (by omega)
      · omega
    · exact Or.inr rfl

/-! ## Decoder-side helpers -/

/-- `out` ends with an exact copy of `data[1..p)`: the byte of `data` at
index `j` (for `1 ≤ j < p`) sits at `out.length - p + j`.  This is what a
back-reference emitted at position `p` needs: every distance it can carry
reaches a position in `[1, p)`. -/
def Aligned (data out : List Nat) (p : Nat) : Prop :=
  ∀ j, 1 ≤ j → j < p → out.getD (out.length - p + j) 0 = data.getD j 0

theorem aligned_extend {data out : List Nat} {p q : Nat}
    (ha : Aligned data out p) (hl : p ≤ out.length) (hpq : p ≤ q)
    (hq : q ≤ data.length) :
    Aligned data (out ++ sliceD data p q) q := by
  intro j h1 hj
  have hslen : (sliceD data p q).length = q - p := sliceD_length hq
  have hlen : (out ++ sliceD data p q).length = out.length + (q - p) := by
    rw [List.length_append, hslen]
  rw [hlen]
  by_cases hcase : j < p
  · rw [getD_append_left (by omega)]
    have harith : out.length + (q - p) - q + j = out.length - p + j := by omega
    rw [harith]
    exact ha j h1 hcase
  · rw [getD_append_right (by omega)]
    have harith : out.length + (q - p) - q + j - out.length = j - p := by omega
    rw [harith, sliceD_getD (by omega)]
    congr 1
    omega

/-- Replaying an overlapping copy: if every byte the copy loop reads
from the (growing) output equals the corresponding byte of the target
`T`, the loop appends exactly `T`. -/
theorem lz_copy_spec : ∀ (T : List Nat) (out : List Nat) (s : Nat),
    s < out.length ∨ T = [] →
    (∀ k, k < T.length → (out ++ T).getD (s + k) 0 = T.getD k 0) →
    lz_copy out s T.length = out ++ T := by
  intro T
  induction T with
  | nil =>
    intro out s _ _
    simp [lz_copy]
  | cons tb T2 ih =>
    intro out s hs hread
    have hs2 : s < out.length := by
      rcases hs with hs | hs
      · exact hs
      · cases hs
    have hhead : out.getD s 0 = tb := by
      have h0 := hread 0 (by simp)
      rw [Nat.add_zero] at h0
      rw [← getD_append_left (m := tb :: T2) hs2]
      exact h0
    show lz_copy (out ++ [out.getD s 0]) (s + 1) T2.length = out ++ tb :: T2
    rw [hhead]
    have hout2 : out ++ [tb] ++ T2 = out ++ tb :: T2 := by simp
    rw [← hout2]
    apply ih (out ++ [tb]) (s + 1)
    · left
      rw [List.length_append]
      simp
      omega
    · intro k hk
      have := hread (k + 1) (by simp; omega)
      rw [hout2]
      have harith : s + 1 + k = s + (k + 1) := by omega
      rw [harith, this]
      rfl

/-- Transfer a candidate contract on the clamped slice `data.take endc`
back to `data` itself. -/
theorem goodcand_of_take {data : List Nat} {endc p L d : Nat}
    (hendc : endc ≤ data.length)
    (h : GoodCand (data.take endc) p L d) :
    1 ≤ d ∧ d + 1 ≤ p ∧ d ≤ WINDOW_SIZE ∧ p + L ≤ endc ∧ L ≤ MAX_MATCH ∧
      ∀ k, k < L → data.getD (p + k) 0 = data.getD (p - d + k) 0 := by
  obtain ⟨h1, h2, h3, h4, h5, h6⟩ := h
  have hlen : (data.take endc).length = endc := by
    rw [List.length_take]
    omega
  rw [hlen] at h4
  refine ⟨h1, h2, h3, h4, h5, ?_⟩
  intro k hk
  have := h6 k hk
  rw [getD_take_lt (by omega), getD_take_lt (by omega)] at this
  exact this

/-! ## add_hash_taken bookkeeping -/

theorem aht_htpre (data : List Nat) (endc : Nat) :
    ∀ k t hs pos, HtPre t pos →
      HtPre (add_hash_taken data endc t hs pos k).1 (pos + k) := by
  intro k
  induction k with
  | zero =>
    intro t hs pos h
    exact h
  | succ k ih =>
    intro t hs pos h
    rw [add_hash_taken]
    by_cases hp : pos < endc
    · rw [if_pos hp]
      rcases hb : data[pos + 2]? with _ | b
      · exact htpre_mono h (by omega)
      · have := ih (t.add_hash_value pos b) (hs ++ [pos]) (pos + 1)
          (htpre_add h (le_refl pos))
        have harith : pos + 1 + k = pos + (k + 1) := by omega
        rw [harith] at this
        exact this
    · rw [if_neg hp]
      exact htpre_mono h (by omega)

theorem aht_hashed (data : List Nat) (endc : Nat) :
    ∀ k t hs pos, ∀ x ∈ (add_hash_taken data endc t hs pos k).2,
      x ∈ hs ∨ x + 2 < data.length := by
  intro k
  induction k with
  | zero =>
    intro t hs pos x hx
    exact Or.inl hx
  | succ k ih =>
    intro t hs pos x hx
    rw [add_hash_taken] at hx
    by_cases hp : pos < endc
    · rw [if_pos hp] at hx
      rcases hb : data[pos + 2]? with _ | b <;> rw [hb] at hx
      · exact Or.inl hx
      · rcases ih (t.add_hash_value pos b) (hs ++ [pos]) (pos + 1) x hx with
          h | h
        · rcases List.mem_append.mp h with h | h
          · exact Or.inl h
          · right
            rw [List.mem_singleton.mp h]
            exact lt_length_of_getElem? hb
        · exact Or.inr h
    · rw [if_neg hp] at hx
      exact Or.inl hx

/-! ## Decoder and validator step equations -/

theorem dec_nil (ll : Nat) (out : List Nat) :
    decompress_lz77_loop [] ll out = out := rfl

theorem dec_lit (b : Nat) (r : List LDPair) (ll : Nat) (out : List Nat) :
    decompress_lz77_loop (LDPair.Literal b :: r) ll out =
      decompress_lz77_loop r ll (out ++ [b]) := rfl

theorem dec_pair (l d : Nat) (r : List LDPair) (ll : Nat) (out : List Nat) :
    decompress_lz77_loop (LDPair.Length l :: LDPair.Distance d :: r) ll out =
      decompress_lz77_loop r l (lz_copy out (out.length - d) l) := rfl

theorem dec_eob (r : List LDPair) (ll : Nat) (out : List Nat) :
    decompress_lz77_loop (LDPair.EndOfBlock :: r) ll out =
      decompress_lz77_loop r ll out := rfl

theorem tv_nil (c : Nat) : tokens_valid_from [] c = some c := rfl

theorem tv_lit (b : Nat) (r : List LDPair) (c : Nat) :
    tokens_valid_from (LDPair.Literal b :: r) c =
      tokens_valid_from r (c + 1) := rfl

theorem tv_pair (l d : Nat) (r : List LDPair) (c : Nat) :
    tokens_valid_from (LDPair.Length l :: LDPair.Distance d :: r) c =
      if MIN_MATCH ≤ l ∧ l ≤ MAX_MATCH ∧ 1 ≤ d ∧ d ≤ WINDOW_SIZE ∧ d ≤ c then
        tokens_valid_from r (c + l)
      else none := rfl

theorem tv_eob (r : List LDPair) (c : Nat) :
    tokens_valid_from (LDPair.EndOfBlock :: r) c = tokens_valid_from r c := rfl

/-! ## The chunk-processor invariant -/

/-- Number of input positions already fully covered by the emitted
tokens: when a literal is pending (`add`), the byte at `pos - 1` is not
yet in the output. -/
def pcov (pos : Nat) : Bool → Nat
  | true => pos - 1
  | false => pos

/-- Reachable states of the `process_chunk` loop at the top of an
iteration at `pos`:
* a literal is pending (`add`): `prev_byte` is the input byte at
  `pos - 1`, and `prev_length`/`prev_distance` is the match the finder
  returned there (either no match, or a valid candidate);
* no literal is pending and `prev_length < MIN_MATCH` (initial state
  `NO_LENGTH = 2`, or 0 right after emitting a match), so no match can be
  emitted at this position;
* no literal is pending and the hash lookahead is exhausted
  (`data.length ≤ pos + 2`): the terminal literal-only mode. -/
def PCState (data : List Nat) (endc pos pB pL pD : Nat) (add : Bool) : Prop :=
  (add = true ∧ 1 ≤ pos ∧ pB = data.getD (pos - 1) 0 ∧
    (pL = 0 ∨ (1 ≤ pL ∧ GoodCand (data.take endc) (pos - 1) pL pD))) ∨
  (add = false ∧ pL < MIN_MATCH) ∨
  (add = false ∧ data.length ≤ pos + 2)

/-- Master invariant lemma for the `process_chunk` loop.  From any
reachable state it terminates successfully; the tokens it appends decode
— against any already-decoded output correctly aligned with the input —
to exactly the input bytes `[pcov, endc)`; they validate (lengths in
`[MIN_MATCH, MAX_MATCH]`, distances in `[1, WINDOW_SIZE]` and within the
decoded prefix, Length/Distance adjacent); and the final hash table is
again well-formed. -/
theorem pcl_master (data : List Nat) (endc : Nat) (hendc : endc ≤ data.length) :
    ∀ fuel pos pB pL pD add t0 ts0 hs0 ss0,
      endc < pos + fuel →
      pos ≤ endc →
      HtPre t0 pos →
      PCState data endc pos pB pL pD add →
      ∃ res Δ,
        process_chunk_loop data endc fuel pos pB pL pD add ⟨ts0, t0, hs0, ss0⟩ =
          some res ∧
        res.tokens = ts0 ++ Δ ∧
        HtPre res.ht endc ∧
        (∀ out0 ll0, Aligned data out0 (pcov pos add) →
          pcov pos add ≤ out0.length →
          decompress_lz77_loop Δ ll0 out0 =
            out0 ++ sliceD data (pcov pos add) endc) ∧
        (∀ c0, pcov pos add ≤ c0 →
          tokens_valid_from Δ c0 = some (c0 + (endc - pcov pos add))) := by
  intro fuel
  induction fuel with
  | zero =>
    intro pos pB pL pD add t0 ts0 hs0 ss0 hfuel hpe _ _
    omega
  | succ fuel ih =>
    intro pos pB pL pD add t0 ts0 hs0 ss0 hfuel hpe hpre hstate
    rw [process_chunk_loop]
    by_cases hlt : pos < endc
    · rw [if_pos hlt]
      rcases hhb : data[pos + 2]? with _ | hb
      · -- hash lookahead exhausted: terminal literal mode
        simp only [hhb]
        have hlen2 : data.length ≤ pos + 2 := length_le_of_getElem?_none hhb
        rcases hstate with ⟨hadd, hpos1, hpB, _⟩ | hrest
        · -- pending literal: flush it, then emit the current byte
          subst hadd
          rw [if_pos rfl]
          obtain ⟨res, Δ2, hres, htok, hht, hdec, htv⟩ :=
            ih (pos + 1) pB pL pD false t0
              (ts0 ++ [LDPair.Literal pB] ++ [LDPair.Literal (data.getD pos 0)])
              hs0 ss0 (by omega) (by omega) (htpre_mono hpre (by omega))
              (Or.inr (Or.inr ⟨rfl, by omega⟩))
          refine ⟨res, LDPair.Literal pB :: LDPair.Literal (data.getD pos 0) ::
            Δ2, hres, ?_, hht, ?_, ?_⟩
          · rw [htok]; simp
          · intro out0 ll0 hal hol
            simp only [pcov] at hal hol ⊢
            rw [dec_lit, dec_lit]
            have hs1 : out0 ++ [pB] ++ [data.getD pos 0] =
                out0 ++ sliceD data (pos - 1) (pos + 1) := by
              rw [sliceD_cons (by omega) (by omega),
                sliceD_cons (by omega) (by omega), sliceD_nil (by omega),
                hpB, show pos - 1 + 1 = pos by omega]
              simp
            rw [hdec (out0 ++ [pB] ++ [data.getD pos 0]) ll0 ?_ ?_]
            · rw [hs1, List.append_assoc,
                ← sliceD_append (a := pos - 1) (b := pos + 1) (c := endc)
                  (by omega) (by omega)]
              simp only [pcov]
            · rw [hs1]
              simp only [pcov]
              exact aligned_extend hal hol (by omega) (by omega)
            · simp only [pcov]
              rw [List.length_append, List.length_append]
              simp
              omega
          · intro c0 hc0
            simp only [pcov] at hc0 ⊢
            rw [tv_lit, tv_lit, htv (c0 + 1 + 1) (by simp only [pcov]; omega)]
            congr 1
            simp only [pcov]
            omega
        · -- no pending literal: emit the current byte
          have hadd : add = false := by
            rcases hrest with ⟨h, _⟩ | ⟨h, _⟩ <;> exact h
          subst hadd
          rw [if_neg (by simp)]
          obtain ⟨res, Δ2, hres, htok, hht, hdec, htv⟩ :=
            ih (pos + 1) pB pL pD false t0
              (ts0 ++ [LDPair.Literal (data.getD pos 0)])
              hs0 ss0 (by omega) (by omega) (htpre_mono hpre (by omega))
              (Or.inr (Or.inr ⟨rfl, by omega⟩))
          refine ⟨res, LDPair.Literal (data.getD pos 0) :: Δ2, hres, ?_, hht,
            ?_, ?_⟩
          · rw [htok]; simp
          · intro out0 ll0 hal hol
            simp only [pcov] at hal hol ⊢
            rw [dec_lit]
            have hs1 : out0 ++ [data.getD pos 0] =
                out0 ++ sliceD data pos (pos + 1) := by
              rw [sliceD_cons (by omega) (by omega), sliceD_nil (by omega)]
            rw [hdec (out0 ++ [data.getD pos 0]) ll0 ?_ ?_]
            · rw [hs1, List.append_assoc,
                ← sliceD_append (a := pos) (b := pos + 1) (c := endc)
                  (by omega) (by omega)]
              simp only [pcov]
            · rw [hs1]
              simp only [pcov]
              exact aligned_extend hal hol (by omega) (by omega)
            · simp only [pcov]
              rw [List.length_append]
              simp
              omega
          · intro c0 hc0
            simp only [pcov] at hc0 ⊢
            rw [tv_lit, htv (c0 + 1) (by simp only [pcov]; omega)]
            congr 1
            simp only [pcov]
            omega
      · -- hash lookahead available: insert, search, decide
        simp only [hhb]
        have hpos3 : pos + 2 < data.length := lt_length_of_getElem? hhb
        obtain ⟨r, hlm, hrspec⟩ := longest_match_basic (data.take endc)
          (t0.add_hash_value pos hb) pos pL
          (htpre_add_prevlt hpre (le_refl pos))
        simp only [hlm]
        by_cases hbr : r.length ≤ pL ∧ MIN_MATCH ≤ pL
        · rw [if_pos hbr]
          -- previous match wins: emit the pair and skip over it
          have hpL3 : 3 ≤ pL := hbr.2
          rcases hstate with ⟨hadd, hpos1, hpB, hprev⟩ | ⟨_, hpL2⟩ | ⟨_, hlen⟩
          rotate_left
          · have hpL2b : pL < 3 := hpL2
            omega
          · omega
          subst hadd
          rcases hprev with hpL0 | ⟨hpL1, hgc⟩
          · omega
          obtain ⟨hd1, hd2, hdW, hLend, hLmax, hmatch⟩ :=
            goodcand_of_take hendc hgc
          have hdW2 : pD ≤ 32768 := hdW
          have hLM2 : pL ≤ 258 := hLmax
          have hr0 : r.length = 0 := by
            rcases hrspec with ⟨h0, _⟩ | ⟨hgt, _⟩ <;> omega
          have hht2 := aht_htpre data endc (pL - 2) (t0.add_hash_value pos hb)
            (hs0 ++ [pos]) (pos + 1) (htpre_add hpre (le_refl pos))
          obtain ⟨res, Δ2, hres, htok, hht, hdec, htv⟩ :=
            ih (pos + 1 + (pL - 2)) (data.getD pos 0) r.length r.dist false
              (add_hash_taken data endc (t0.add_hash_value pos hb)
                (hs0 ++ [pos]) (pos + 1) (pL - 2)).1
              (ts0 ++ [LDPair.Length pL, LDPair.Distance pD])
              (add_hash_taken data endc (t0.add_hash_value pos hb)
                (hs0 ++ [pos]) (pos + 1) (pL - 2)).2
              (ss0 ++ [pos]) (by omega) (by omega) hht2
              (Or.inr (Or.inl ⟨rfl, by rw [hr0]; decide⟩))
          refine ⟨res, LDPair.Length pL :: LDPair.Distance pD :: Δ2, hres, ?_,
            hht, ?_, ?_⟩
          · rw [htok]; simp
          · intro out0 ll0 hal hol
            simp only [pcov] at hal hol ⊢
            rw [dec_pair]
            have hTlen : (sliceD data (pos - 1) (pos - 1 + pL)).length = pL := by
              rw [sliceD_length (by omega)]
              omega
            have hcopy : lz_copy out0 (out0.length - pD) pL =
                out0 ++ sliceD data (pos - 1) (pos - 1 + pL) := by
              have hspec := lz_copy_spec (sliceD data (pos - 1) (pos - 1 + pL))
                out0 (out0.length - pD) (Or.inl (by omega)) ?_
              · rw [hTlen] at hspec
                exact hspec
              intro k hk
              rw [hTlen] at hk
              rw [sliceD_getD (by omega)]
              by_cases hkd : k < pD
              · rw [getD_append_left (by omega)]
                have hali := hal (pos - 1 - pD + k) (by omega) (by omega)
                rw [show out0.length - (pos - 1) + (pos - 1 - pD + k) =
                  out0.length - pD + k by omega] at hali
                rw [hali]
                exact (hmatch k (by omega)).symm
              · rw [getD_append_right (by omega),
                  show out0.length - pD + k - out0.length = k - pD by omega,
                  sliceD_getD (by omega),
                  show pos - 1 + (k - pD) = pos - 1 - pD + k by omega]
                exact (hmatch k (by omega)).symm
            rw [hcopy, hdec (out0 ++ sliceD data (pos - 1) (pos - 1 + pL))
              pL ?_ ?_]
            · rw [List.append_assoc, show pcov (pos + 1 + (pL - 2)) false =
                pos - 1 + pL by simp only [pcov]; omega,
                ← sliceD_append (a := pos - 1) (b := pos - 1 + pL) (c := endc)
                  (by omega) (by omega)]
            · rw [show pcov (pos + 1 + (pL - 2)) false = pos - 1 + pL by
                simp only [pcov]; omega]
              exact aligned_extend hal hol (by omega) (by omega)
            · rw [show pcov (pos + 1 + (pL - 2)) false = pos - 1 + pL by
                simp only [pcov]; omega, List.length_append, hTlen]
              omega
          · intro c0 hc0
            simp only [pcov] at hc0 ⊢
            rw [tv_pair, if_pos ⟨hbr.2, hLmax, hd1, hdW, by omega⟩,
              htv (c0 + pL) (by simp only [pcov]; omega)]
            congr 1
            simp only [pcov]
            omega
        · rw [if_neg hbr]
          -- no emission: the current byte becomes the pending literal
          rcases hstate with ⟨hadd, hpos1, hpB, hprev⟩ | ⟨hadd, hpL3⟩ |
            ⟨hadd, hlen⟩
          rotate_right
          · omega
          · -- pending literal exists: it is output now
            subst hadd
            rw [if_pos rfl]
            have hstate2 : PCState data endc (pos + 1) (data.getD pos 0)
                r.length r.dist true := by
              refine Or.inl ⟨rfl, by omega,
                by rw [show pos + 1 - 1 = pos by omega], ?_⟩
              rcases hrspec with ⟨h0, _⟩ | ⟨hgt, hgood⟩
              · exact Or.inl h0
              · right
                refine ⟨by omega, ?_⟩
                rw [show pos + 1 - 1 = pos by omega]
                exact hgood
            obtain ⟨res, Δ2, hres, htok, hht, hdec, htv⟩ :=
              ih (pos + 1) (data.getD pos 0) r.length r.dist true
                (t0.add_hash_value pos hb) (ts0 ++ [LDPair.Literal pB])
                (hs0 ++ [pos]) (ss0 ++ [pos]) (by omega) (by omega)
                (htpre_add hpre (le_refl pos)) hstate2
            refine ⟨res, LDPair.Literal pB :: Δ2, hres, ?_, hht, ?_, ?_⟩
            · rw [htok]; simp
            · intro out0 ll0 hal hol
              simp only [pcov] at hal hol ⊢
              rw [dec_lit]
              have hs1 : out0 ++ [pB] = out0 ++ sliceD data (pos - 1) pos := by
                rw [sliceD_cons (by omega) (by omega), sliceD_nil (by omega),
                  hpB]
              rw [hdec (out0 ++ [pB]) ll0 ?_ ?_]
              · rw [hs1, List.append_assoc, show pcov (pos + 1) true = pos by
                  simp only [pcov]; omega,
                  ← sliceD_append (a := pos - 1) (b := pos) (c := endc)
                    (by omega) (by omega)]
              · rw [hs1, show pcov (pos + 1) true = pos by simp only [pcov]; omega]
                exact aligned_extend hal hol (by omega) (by omega)
              · rw [show pcov (pos + 1) true = pos by simp only [pcov]; omega,
                  List.length_append]
                simp
                omega
            · intro c0 hc0
              simp only [pcov] at hc0 ⊢
              rw [tv_lit, htv (c0 + 1) (by simp only [pcov]; omega)]
              congr 1
              simp only [pcov]
              omega
          · -- nothing pending: just hold the byte
            subst hadd
            rw [if_neg (by simp)]
            have hstate2 : PCState data endc (pos + 1) (data.getD pos 0)
                r.length r.dist true := by
              refine Or.inl ⟨rfl, by omega,
                by rw [show pos + 1 - 1 = pos by omega], ?_⟩
              rcases hrspec with ⟨h0, _⟩ | ⟨hgt, hgood⟩
              · exact Or.inl h0
              · right
                refine ⟨by omega, ?_⟩
                rw [show pos + 1 - 1 = pos by omega]
                exact hgood
            obtain ⟨res, Δ2, hres, htok, hht, hdec, htv⟩ :=
              ih (pos + 1) (data.getD pos 0) r.length r.dist true
                (t0.add_hash_value pos hb) ts0 (hs0 ++ [pos]) (ss0 ++ [pos])
                (by omega) (by omega) (htpre_add hpre (le_refl pos)) hstate2
            refine ⟨res, Δ2, hres, htok, hht, ?_, ?_⟩
            · intro out0 ll0 hal hol
              simp only [pcov] at hal hol ⊢
              rw [hdec out0 ll0 ?_ ?_]
              · rw [show pcov (pos + 1) true = pos by simp only [pcov]; omega]
              · rw [show pcov (pos + 1) true = pos by simp only [pcov]; omega]
                exact hal
              · rw [show pcov (pos + 1) true = pos by simp only [pcov]; omega]
                exact hol
            · intro c0 hc0
              simp only [pcov] at hc0 ⊢
              rw [htv c0 (by simp only [pcov]; omega)]
              congr 1
    · rw [if_neg hlt]
      have hpeq : pos = endc := by omega
      rcases hstate with ⟨hadd, hpos1, hpB, _⟩ | hrest
      · subst hadd
        refine ⟨⟨ts0 ++ [LDPair.Literal pB], t0, hs0, ss0⟩,
          [LDPair.Literal pB], by rw [if_pos rfl], rfl,
          htpre_mono hpre (by omega), ?_, ?_⟩
        · intro out0 ll0 hal hol
          simp only [pcov] at hal hol ⊢
          rw [dec_lit, dec_nil]
          have hs1 : sliceD data (pos - 1) endc = [data.getD (pos - 1) 0] := by
            rw [← hpeq, sliceD_cons (by omega) (by omega),
              sliceD_nil (by omega)]
          rw [hs1, hpB]
        · intro c0 hc0
          simp only [pcov] at hc0 ⊢
          rw [tv_lit, tv_nil]
          congr 1
          omega
      · have hadd : add = false := by
          rcases hrest with ⟨h, _⟩ | ⟨h, _⟩ <;> exact h
        subst hadd
        refine ⟨⟨ts0, t0, hs0, ss0⟩, [], by rw [if_neg (by simp)],
          by simp, htpre_mono hpre (by omega), ?_, ?_⟩
        · intro out0 ll0 _ _
          simp only [pcov]
          rw [dec_nil, sliceD_nil (by omega)]
          simp
        · intro c0 _
          simp only [pcov]
          rw [tv_nil]
          congr 1
          omega

/-- `process_chunk` contract: given a well-formed table and a start
position at least two bytes from the data end and not past the clamped
end, it succeeds, its tokens decode to exactly the clamped byte range
`[start, min(end, len))` against any aligned prior output, they
validate, and the table stays well-formed. -/
theorem process_chunk_spec (data : List Nat) (start endr : Nat)
    (t : ChainedHashTable) (hse : start + 2 ≤ data.length)
    (hsr : start ≤ endr) (hpre : HtPre t start) :
    ∃ res, process_chunk data start endr t = some res ∧
      HtPre res.ht (min data.length endr) ∧
      (∀ out0 ll0, Aligned data out0 start → start ≤ out0.length →
        decompress_lz77_loop res.tokens ll0 out0 =
          out0 ++ sliceD data start (min data.length endr)) ∧
      (∀ c0, start ≤ c0 → tokens_valid_from res.tokens c0 =
        some (c0 + (min data.length endr - start))) := by
  rw [process_chunk]
  have hcl : start ≤ min data.length endr := by omega
  rw [if_pos ⟨hcl, hse⟩]
  obtain ⟨res, Δ, hres, htok, hht, hdec, htv⟩ :=
    pcl_master data (min data.length endr) (by omega)
      (min data.length endr - start + 1) start 0 (MIN_MATCH - 1) 0 false t
      [] [] [] (by omega) hcl hpre (Or.inr (Or.inl ⟨rfl, by decide⟩))
  rw [List.nil_append] at htok
  refine ⟨res, hres, hht, ?_, ?_⟩
  · intro out0 ll0 hal hol
    rw [htok]
    exact hdec out0 ll0 hal hol
  · intro c0 hc0
    rw [htok]
    exact htv c0 hc0

/-! ## Stream composition lemmas -/

theorem tv_append : ∀ (xs ys : List LDPair) (c c2 : Nat),
    tokens_valid_from xs c = some c2 →
    tokens_valid_from (xs ++ ys) c = tokens_valid_from ys c2
  | [], ys, c, c2, h => by
    rw [tv_nil] at h
    cases h
    rfl
  | LDPair.Literal b :: r, ys, c, c2, h => by
    rw [tv_lit] at h
    rw [List.cons_append, tv_lit]
    exact tv_append r ys (c + 1) c2 h
  | LDPair.Length l :: LDPair.Distance d :: r, ys, c, c2, h => by
    rw [tv_pair] at h
    rw [List.cons_append, List.cons_append, tv_pair]
    by_cases hok : MIN_MATCH ≤ l ∧ l ≤ MAX_MATCH ∧ 1 ≤ d ∧ d ≤ WINDOW_SIZE ∧
        d ≤ c
    · rw [if_pos hok] at h ⊢
      exact tv_append r ys (c + l) c2 h
    · rw [if_neg hok] at h
      cases h
  | LDPair.Length l :: [], ys, c, c2, h => by cases h
  | LDPair.Length l :: LDPair.Literal b :: r, ys, c, c2, h => by cases h
  | LDPair.Length l :: LDPair.Length l2 :: r, ys, c, c2, h => by cases h
  | LDPair.Length l :: LDPair.EndOfBlock :: r, ys, c, c2, h => by cases h
  | LDPair.Distance d :: r, ys, c, c2, h => by cases h
  | LDPair.EndOfBlock :: r, ys, c, c2, h => by
    rw [tv_eob] at h
    rw [List.cons_append, tv_eob]
    exact tv_append r ys c c2 h

/-- The `last_length` register of the decoder after consuming a token
list. -/
def dec_ll : List LDPair → Nat → Nat
  | [], ll => ll
  | LDPair.Length l :: r, _ => dec_ll r l
  | _ :: r, ll => dec_ll r ll

theorem dec_append : ∀ (xs ys : List LDPair) (ll : Nat) (out : List Nat),
    decompress_lz77_loop (xs ++ ys) ll out =
      decompress_lz77_loop ys (dec_ll xs ll) (decompress_lz77_loop xs ll out) := by
  intro xs
  induction xs with
  | nil => intro ys ll out; rfl
  | cons tk r ih =>
    intro ys ll out
    cases tk with
    | Literal b => rw [List.cons_append, dec_lit, ih, dec_lit]; rfl
    | Length l =>
      show decompress_lz77_loop (r ++ ys) l out = _
      rw [ih]
      rfl
    | Distance d =>
      show decompress_lz77_loop (r ++ ys) ll (lz_copy out (out.length - d) ll) = _
      rw [ih]
      rfl
    | EndOfBlock =>
      show decompress_lz77_loop (r ++ ys) ll out = _
      rw [ih]
      rfl

theorem wp_of_tv : ∀ (xs : List LDPair) (c c2 : Nat),
    tokens_valid_from xs c = some c2 → well_paired xs = true
  | [], c, c2, h => rfl
  | LDPair.Literal b :: r, c, c2, h => by
    rw [tv_lit] at h
    exact wp_of_tv r (c + 1) c2 h
  | LDPair.Length l :: LDPair.Distance d :: r, c, c2, h => by
    rw [tv_pair] at h
    by_cases hok : MIN_MATCH ≤ l ∧ l ≤ MAX_MATCH ∧ 1 ≤ d ∧ d ≤ WINDOW_SIZE ∧
        d ≤ c
    · rw [if_pos hok] at h
      show well_paired r = true
      exact wp_of_tv r (c + l) c2 h
    · rw [if_neg hok] at h
      cases h
  | LDPair.Length l :: [], c, c2, h => by cases h
  | LDPair.Length l :: LDPair.Literal b :: r, c, c2, h => by cases h
  | LDPair.Length l :: LDPair.Length l2 :: r, c, c2, h => by cases h
  | LDPair.Length l :: LDPair.EndOfBlock :: r, c, c2, h => by cases h
  | LDPair.Distance d :: r, c, c2, h => by cases h
  | LDPair.EndOfBlock :: r, c, c2, h => by
    rw [tv_eob] at h
    show well_paired r = true
    exact wp_of_tv r c c2 h

/-! ## Chunk bookkeeping: no end-of-block, instrumentation bounds, tail
behaviour -/

theorem count_eob_append (xs ys : List LDPair) :
    count_eob (xs ++ ys) = count_eob xs + count_eob ys :=
  List.countP_append ..

/-- The chunk processor itself never writes an end-of-block token. -/
theorem pcl_no_eob (data : List Nat) (endc : Nat) :
    ∀ fuel pos pB pL pD add t0 ts0 hs0 ss0 res,
      process_chunk_loop data endc fuel pos pB pL pD add ⟨ts0, t0, hs0, ss0⟩ =
        some res →
      count_eob res.tokens = count_eob ts0 := by
  intro fuel
  induction fuel with
  | zero =>
    intro pos pB pL pD add t0 ts0 hs0 ss0 res h
    rw [process_chunk_loop] at h
    cases h
  | succ fuel ih =>
    intro pos pB pL pD add t0 ts0 hs0 ss0 res h
    rw [process_chunk_loop] at h
    by_cases hlt : pos < endc
    · rw [if_pos hlt] at h
      rcases hhb : data[pos + 2]? with _ | hb <;> rw [hhb] at h
      · have := ih (pos + 1) pB pL pD false t0 _ hs0 ss0 res h
        rw [this]
        by_cases hadd : add = true
        · rw [if_pos hadd, count_eob_append, count_eob_append]
          rfl
        · rw [if_neg hadd, count_eob_append]
          rfl
      · simp only [] at h
        rcases hlm : longest_match (data.take endc)
            (t0.add_hash_value pos hb) pos pL with _ | r <;>
          rw [hlm] at h
        · cases h
        · simp only [] at h
          by_cases hbr : r.length ≤ pL ∧ MIN_MATCH ≤ pL
          · rw [if_pos hbr] at h
            have := ih _ _ _ _ false _ _ _ _ res h
            rw [this, count_eob_append]
            rfl
          · rw [if_neg hbr] at h
            by_cases hadd : add = true
            · rw [if_pos hadd] at h
              have := ih _ _ _ _ true _ _ _ _ res h
              rw [this, count_eob_append]
              rfl
            · rw [if_neg hadd] at h
              exact ih _ _ _ _ true _ _ _ _ res h
    · rw [if_neg hlt] at h
      cases h
      by_cases hadd : add = true
      · rw [if_pos hadd]
        show count_eob (ts0 ++ [LDPair.Literal pB]) = count_eob ts0
        rw [count_eob_append]
        rfl
      · rw [if_neg hadd]

/-- Positions passed to `add_hash_value` or to the match finder always
have a full hash key available: they lie at least 3 bytes before the end
of the data. -/
theorem pcl_instr (data : List Nat) (endc : Nat) :
    ∀ fuel pos pB pL pD add t0 ts0 hs0 ss0 res,
      process_chunk_loop data endc fuel pos pB pL pD add ⟨ts0, t0, hs0, ss0⟩ =
        some res →
      (∀ x ∈ res.hashed, x ∈ hs0 ∨ x + 2 < data.length) ∧
      (∀ x ∈ res.searched, x ∈ ss0 ∨ x + 2 < data.length) := by
  intro fuel
  induction fuel with
  | zero =>
    intro pos pB pL pD add t0 ts0 hs0 ss0 res h
    rw [process_chunk_loop] at h
    cases h
  | succ fuel ih =>
    intro pos pB pL pD add t0 ts0 hs0 ss0 res h
    rw [process_chunk_loop] at h
    by_cases hlt : pos < endc
    · rw [if_pos hlt] at h
      rcases hhb : data[pos + 2]? with _ | hb <;> rw [hhb] at h
      · exact ih (pos + 1) pB pL pD false t0 _ hs0 ss0 res h
      · have hpos3 : pos + 2 < data.length := lt_length_of_getElem? hhb
        simp only [] at h
        rcases hlm : longest_match (data.take endc)
            (t0.add_hash_value pos hb) pos pL with _ | r <;>
          rw [hlm] at h
        · cases h
        · simp only [] at h
          by_cases hbr : r.length ≤ pL ∧ MIN_MATCH ≤ pL
          · rw [if_pos hbr] at h
            obtain ⟨h1, h2⟩ := ih _ _ _ _ false _ _ _ _ res h
            constructor
            · intro x hx
              rcases h1 x hx with hin | hfar
              · rcases aht_hashed data endc (pL - 2) (t0.add_hash_value pos hb)
                  (hs0 ++ [pos]) (pos + 1) x hin with hin2 | hfar2
                · rcases List.mem_append.mp hin2 with h3 | h3
                  · exact Or.inl h3
                  · right
                    rw [List.mem_singleton.mp h3]
                    exact hpos3
                · exact Or.inr hfar2
              · exact Or.inr hfar
            · intro x hx
              rcases h2 x hx with hin | hfar
              · rcases List.mem_append.mp hin with h3 | h3
                · exact Or.inl h3
                · right
                  rw [List.mem_singleton.mp h3]
                  exact hpos3
              · exact Or.inr hfar
          · rw [if_neg hbr] at h
            have hnext : ∀ res2 pB2 pL2 pD2 add2 ts2,
                process_chunk_loop data endc fuel (pos + 1) pB2 pL2 pD2 add2
                  ⟨ts2, t0.add_hash_value pos hb, hs0 ++ [pos],
                    ss0 ++ [pos]⟩ = some res2 →
                (∀ x ∈ res2.hashed, x ∈ hs0 ∨ x + 2 < data.length) ∧
                (∀ x ∈ res2.searched, x ∈ ss0 ∨ x + 2 < data.length) := by
              intro res2 pB2 pL2 pD2 add2 ts2 h2
              obtain ⟨g1, g2⟩ := ih _ _ _ _ add2 _ _ _ _ res2 h2
              constructor
              · intro x hx
                rcases g1 x hx with hin | hfar
                · rcases List.mem_append.mp hin with h3 | h3
                  · exact Or.inl h3
                  · right
                    rw [List.mem_singleton.mp h3]
                    exact hpos3
                · exact Or.inr hfar
              · intro x hx
                rcases g2 x hx with hin | hfar
                · rcases List.mem_append.mp hin with h3 | h3
                  · exact Or.inl h3
                  · right
                    rw [List.mem_singleton.mp h3]
                    exact hpos3
                · exact Or.inr hfar
            by_cases hadd : add = true
            · rw [if_pos hadd] at h
              exact hnext res _ _ _ true _ h
            · rw [if_neg hadd] at h
              exact hnext res _ _ _ true _ h
    · rw [if_neg hlt] at h
      cases h
      exact ⟨fun x hx => Or.inl hx, fun x hx => Or.inl hx⟩

/-- Terminal literal mode: once the hash lookahead is exhausted
(`data.length ≤ pos + 2`), the rest of the chunk is emitted as the
pending literal (if any) followed by the remaining bytes as plain
literals, and the hash table is not touched. -/
theorem pcl_tail (data : List Nat) (endc : Nat) (hendc : endc ≤ data.length) :
    ∀ fuel pos pB pL pD add t0 ts0 hs0 ss0,
      data.length ≤ pos + 2 → pos ≤ endc → endc < pos + fuel →
      process_chunk_loop data endc fuel pos pB pL pD add ⟨ts0, t0, hs0, ss0⟩ =
        some ⟨ts0 ++ (if add then [LDPair.Literal pB] else []) ++
          (sliceD data pos endc).map LDPair.Literal, t0, hs0, ss0⟩ := by
  intro fuel
  induction fuel with
  | zero =>
    intro pos pB pL pD add t0 ts0 hs0 ss0 _ hpe hfuel
    omega
  | succ fuel ih =>
    intro pos pB pL pD add t0 ts0 hs0 ss0 htail hpe hfuel
    rw [process_chunk_loop]
    by_cases hlt : pos < endc
    · rw [if_pos hlt]
      have hhb : data[pos + 2]? = none := List.getElem?_eq_none (by omega)
      simp only [hhb]
      have hstep := ih (pos + 1) pB pL pD false t0
        ((if add then ts0 ++ [LDPair.Literal pB] else ts0) ++
          [LDPair.Literal (data.getD pos 0)]) hs0 ss0
        (by omega) (by omega) (by omega)
      rw [hstep]
      simp only [Option.some.injEq, PCAcc.mk.injEq, and_true]
      rw [@sliceD_cons data pos endc (by omega) (by omega)]
      by_cases hadd : add = true
      · subst hadd
        simp
      · have hadd2 : add = false := by revert hadd; cases add <;> simp
        subst hadd2
        simp
    · rw [if_neg hlt]
      have hpeq : pos = endc := by omega
      rw [sliceD_nil (by omega)]
      by_cases hadd : add = true
      · rw [if_pos hadd, if_pos hadd]
        simp
      · rw [if_neg hadd, if_neg hadd]
        simp

/-! ## Driver-level helpers -/

theorem sliceD_zero (data : List Nat) (b : Nat) :
    sliceD data 0 b = data.take b := by
  simp [sliceD]

theorem take_append_sliceD {data : List Nat} {a b : Nat} (hab : a ≤ b) :
    data.take a ++ sliceD data a b = data.take b := by
  rw [← sliceD_zero data a, ← sliceD_zero data b,
    sliceD_append (Nat.zero_le a) hab]

/-- Two equal-length windows with pointwise-equal bytes are the same
slice. -/
theorem sliceD_eq_of_corr {l1 l2 : List Nat} {a1 a2 n : Nat}
    (h1 : a1 + n ≤ l1.length) (h2 : a2 + n ≤ l2.length)
    (hc : ∀ k, k < n → l1.getD (a1 + k) 0 = l2.getD (a2 + k) 0) :
    sliceD l1 a1 (a1 + n) = sliceD l2 a2 (a2 + n) := by
  apply List.ext_getElem?
  intro i
  by_cases hi : i < n
  · rw [getElem?_eq_some_getD (by
      rw [sliceD_length (by omega)]; omega),
      getElem?_eq_some_getD (by
      rw [sliceD_length (by omega)]; omega),
      sliceD_getD (by omega), sliceD_getD (by omega), hc i hi]
  · rw [List.getElem?_eq_none (by rw [sliceD_length (by omega)]; omega),
      List.getElem?_eq_none (by rw [sliceD_length (by omega)]; omega)]

theorem create_buffer_length (data : List Nat) :
    (create_buffer data).length = min (WINDOW_SIZE * 2 + 2) data.length := by
  rw [create_buffer, List.length_take]
  omega

theorem create_buffer_getD (data : List Nat) (i : Nat)
    (hi : i < min (WINDOW_SIZE * 2 + 2) data.length) :
    (create_buffer data).getD i 0 = data.getD i 0 := by
  rw [create_buffer, getD_take_lt (by omega)]

/-! ## The block-driver invariant -/

/-- Invariant of the `lz77_compress` driver loop, tying the session
state, the sliding buffer and the token stream emitted so far to the
original input. -/
def DInv (data : List Nat) (st : LZ77State) (buffer : List Nat)
    (ts : List LDPair) : Prop :=
  buffer.length = min (WINDOW_SIZE * 2 + 2) data.length ∧
  (st.is_first_window = true →
    st.current_start = 0 ∧ st.is_last_block = false ∧
    buffer = create_buffer data ∧ ts = [] ∧ HtPre st.hash_table 0) ∧
  (st.is_first_window = false → st.is_last_block = false →
    WINDOW_SIZE ≤ st.current_start ∧ st.current_start < data.length ∧
    WINDOW_SIZE + 500 ≤ data.length ∧
    (∀ i, i < min buffer.length
        (data.length - (st.current_start - WINDOW_SIZE)) →
      buffer.getD i 0 =
        data.getD (st.current_start - WINDOW_SIZE + i) 0) ∧
    HtPre st.hash_table WINDOW_SIZE ∧
    decompress_lz77_loop ts 0 [] = data.take st.current_start ∧
    tokens_valid_from ts 0 = some st.current_start) ∧
  (st.is_last_block = true →
    decompress_lz77_loop ts 0 [] = data ∧
    tokens_valid_from ts 0 = some data.length)

theorem dec_snoc_eob (xs : List LDPair) (ll : Nat) (out : List Nat) :
    decompress_lz77_loop (xs ++ [LDPair.EndOfBlock]) ll out =
      decompress_lz77_loop xs ll out := by
  rw [dec_append]
  rfl

theorem tv_snoc_eob {xs : List LDPair} {c c2 : Nat}
    (h : tokens_valid_from xs c = some c2) :
    tokens_valid_from (xs ++ [LDPair.EndOfBlock]) c = some c2 := by
  rw [tv_append xs [LDPair.EndOfBlock] c c2 h]
  rfl

/-! ## slide_buffer frame lemmas -/

theorem slide_buffer_length {buffer d : List Nat}
    (hb : 2 * WINDOW_SIZE ≤ buffer.length)
    (hd : d.length ≤ buffer.length - WINDOW_SIZE) :
    (slide_buffer buffer d).length = buffer.length := by
  rw [slide_buffer]
  simp only [List.length_append, List.length_take, List.length_drop]
  omega

theorem slide_buffer_getD_low {buffer d : List Nat} {i : Nat}
    (hb : 2 * WINDOW_SIZE ≤ buffer.length) (hi : i < WINDOW_SIZE) :
    (slide_buffer buffer d).getD i 0 = buffer.getD (WINDOW_SIZE + i) 0 := by
  rw [slide_buffer, List.append_assoc, getD_append_left (by
    rw [List.length_take, List.length_drop]
    omega), getD_take_lt hi, getD_drop]

theorem slide_buffer_getD_mid {buffer d : List Nat} {j : Nat}
    (hb : 2 * WINDOW_SIZE ≤ buffer.length) (hj : j < d.length) :
    (slide_buffer buffer d).getD (WINDOW_SIZE + j) 0 = d.getD j 0 := by
  rw [slide_buffer, List.append_assoc, getD_append_right (by
    rw [List.length_take, List.length_drop]
    omega)]
  rw [List.length_take, List.length_drop,
    show WINDOW_SIZE + j - min WINDOW_SIZE (buffer.length - WINDOW_SIZE) = j
      by omega]
  rw [getD_append_left hj]

theorem slide_buffer_getD_high {buffer d : List Nat} {j : Nat}
    (hb : 2 * WINDOW_SIZE ≤ buffer.length) (hj : d.length ≤ j) :
    (slide_buffer buffer d).getD (WINDOW_SIZE + j) 0 =
      buffer.getD (WINDOW_SIZE + j) 0 := by
  rw [slide_buffer, List.append_assoc, getD_append_right (by
    rw [List.length_take, List.length_drop]
    omega)]
  rw [List.length_take, List.length_drop,
    show WINDOW_SIZE + j - min WINDOW_SIZE (buffer.length - WINDOW_SIZE) = j
      by omega]
  rw [getD_append_right hj, getD_drop,
    show WINDOW_SIZE + d.length + (j - d.length) = WINDOW_SIZE + j by omega]

/-- One driver call in the first-window state preserves the invariant. -/
theorem block_step_first (data : List Nat) (st : LZ77State) (buffer : List Nat)
    (ts : List LDPair) (hd2 : 2 ≤ data.length)
    (hinv : DInv data st buffer ts) (hnl : st.is_last_block = false)
    (hfw : st.is_first_window = true) :
    ∃ st2 buf2 Δ, lz77_compress_block data st buffer = some (st2, buf2, Δ) ∧
      DInv data st2 buf2 (ts ++ Δ) ∧ st2.is_first_window = false ∧
      (st2.is_last_block = false →
        st.current_start + 1 ≤ st2.current_start) := by
  obtain ⟨hblen, hfirst, hsteady, hlastinv⟩ := hinv
  have hW : WINDOW_SIZE = 32768 := rfl
  rw [lz77_compress_block]
  rw [if_pos hfw]
  obtain ⟨hcs0, hnl2, hbuf, hts, hpre⟩ := hfirst hfw
  subst hts
  rw [hcs0, hnl]
  have hbufpre : ∀ i, i < buffer.length → buffer.getD i 0 = data.getD i 0 := by
    intro i hi
    rw [hbuf]
    exact create_buffer_getD data i (by rw [hblen] at hi; omega)
  by_cases hm : WINDOW_SIZE < data.length - 0 ∧
      data.length - 0 - WINDOW_SIZE < 500
  · rw [if_pos hm]
    -- merged first window: the whole input is one chunk
    have hfce : data.length ≤ buffer.length := by omega
    obtain ⟨res, hres, hht, hdec, htv⟩ := process_chunk_spec buffer 0
      data.length st.hash_table (by omega) (by omega)
      (htpre_mono hpre (Nat.zero_le 0))
    simp only [hres]
    have hmE : min buffer.length data.length = data.length := by omega
    rw [hmE] at hht hdec htv
    have hdec2 : decompress_lz77_loop (res.tokens ++ [LDPair.EndOfBlock])
        0 [] = data := by
      rw [dec_snoc_eob, hdec [] 0 (fun j h1 h2 => absurd h2 (by omega))
        (by omega), sliceD_zero]
      have : buffer.take data.length = data := by
        rw [hbuf, create_buffer, List.take_take]
        rw [show min data.length (min (WINDOW_SIZE * 2 + 2) data.length) =
          data.length by omega]
        exact List.take_length ..
      rw [this]
      rfl
    have htv2 : tokens_valid_from (res.tokens ++ [LDPair.EndOfBlock]) 0 =
        some data.length := by
      apply tv_snoc_eob
      rw [htv 0 (Nat.zero_le 0)]
      congr 1
      omega
    refine ⟨_, _, _, rfl, ⟨hblen, ?_, ?_, ?_⟩, rfl, ?_⟩
    · intro h
      dsimp only [] at h
      exact (Bool.false_ne_true h).elim
    · intro _ h2
      dsimp only [] at h2
      simp at h2
    · intro _
      exact ⟨hdec2, htv2⟩
    · intro h
      dsimp only [] at h
      simp at h
  · rw [if_neg hm]
    -- plain first window
    have hfce2 : min WINDOW_SIZE data.length ≤ buffer.length := by omega
    obtain ⟨res, hres, hht, hdec, htv⟩ := process_chunk_spec buffer 0
      (min WINDOW_SIZE data.length) st.hash_table (by omega) (by omega)
      (htpre_mono hpre (Nat.zero_le 0))
    simp only [hres]
    have hmE : min buffer.length (min WINDOW_SIZE data.length) =
        min WINDOW_SIZE data.length := by omega
    rw [hmE] at hht hdec htv
    have hdec2 : decompress_lz77_loop (res.tokens ++ [LDPair.EndOfBlock])
        0 [] = data.take (min WINDOW_SIZE data.length) := by
      rw [dec_snoc_eob, hdec [] 0 (fun j h1 h2 => absurd h2 (by omega))
        (by omega), sliceD_zero]
      rw [hbuf, create_buffer, List.take_take]
      rw [show min (min WINDOW_SIZE data.length)
        (min (WINDOW_SIZE * 2 + 2) data.length) =
          min WINDOW_SIZE data.length by omega]
      rfl
    have htv2 : tokens_valid_from (res.tokens ++ [LDPair.EndOfBlock]) 0 =
        some (min WINDOW_SIZE data.length) := by
      apply tv_snoc_eob
      rw [htv 0 (Nat.zero_le 0)]
      congr 1
      omega
    refine ⟨_, _, _, rfl, ⟨hblen, ?_, ?_, ?_⟩, rfl, ?_⟩
    · intro h
      dsimp only [] at h
      exact (Bool.false_ne_true h).elim
    · -- steady-phase invariant when this was not the last block
      intro _ h2
      dsimp only [] at h2 ⊢
      rw [Bool.false_or, decide_eq_false_iff_not] at h2
      have hlenW : WINDOW_SIZE < data.length := by omega
      have hfceW : min WINDOW_SIZE data.length = WINDOW_SIZE := by omega
      have h500 : WINDOW_SIZE + 500 ≤ data.length := by
        rcases Nat.lt_or_ge (data.length - 0 - WINDOW_SIZE) 500 with hc | hc
        · exact absurd ⟨by omega, hc⟩ hm
        · omega
      rw [hfceW] at hdec2 htv2 hht ⊢
      refine ⟨by omega, by omega, h500, ?_, ?_, ?_, ?_⟩
      · intro i hi
        rw [show (0:Nat) + WINDOW_SIZE - WINDOW_SIZE + i = i by omega]
        exact hbufpre i (by omega)
      · exact hht
      · rw [List.nil_append, hdec2, Nat.zero_add]
      · rw [List.nil_append, htv2, Nat.zero_add]
    · intro h
      dsimp only [] at h ⊢
      rw [Bool.false_or, decide_eq_true_eq] at h
      have hfcelen : min WINDOW_SIZE data.length = data.length := by omega
      rw [hfcelen] at hdec2 htv2
      rw [List.nil_append, hdec2, htv2]
      exact ⟨by simp, rfl⟩
    · intro h
      dsimp only [] at h ⊢
      rw [Bool.false_or, decide_eq_false_iff_not] at h
      omega

/-- The sliding case of a steady-state driver call: the new state (hash
table slid one window, `current_start` advanced one window), the slid
buffer and the appended tokens satisfy the invariant. -/
theorem block_step_slide (data : List Nat) (st : LZ77State)
    (buffer : List Nat) (ts : List LDPair) (res : PCAcc) (En : Nat)
    (hblen : buffer.length = min (WINDOW_SIZE * 2 + 2) data.length)
    (hcsW : WINDOW_SIZE ≤ st.current_start)
    (h500 : WINDOW_SIZE + 500 ≤ data.length)
    (hcorr : ∀ i, i < min buffer.length
        (data.length - (st.current_start - WINDOW_SIZE)) →
      buffer.getD i 0 = data.getD (st.current_start - WINDOW_SIZE + i) 0)
    (hEn : En = min (WINDOW_SIZE * 2)
      (data.length - (st.current_start - WINDOW_SIZE)))
    (hht : HtPre res.ht En)
    (hdecfull : decompress_lz77_loop
        (ts ++ (res.tokens ++ [LDPair.EndOfBlock])) 0 [] =
      data.take (st.current_start + (En - WINDOW_SIZE)))
    (htvfull : tokens_valid_from
        (ts ++ (res.tokens ++ [LDPair.EndOfBlock])) 0 =
      some (st.current_start + (En - WINDOW_SIZE)))
    (hfin : ¬ data.length - (st.current_start - WINDOW_SIZE) ≤ En) :
    DInv data
      ⟨res.ht.slide WINDOW_SIZE, st.current_start + WINDOW_SIZE, false, false⟩
      (slide_buffer buffer ((data.drop (st.current_start + WINDOW_SIZE)).take
        (min (st.current_start + WINDOW_SIZE + WINDOW_SIZE + 2) data.length -
          (st.current_start + WINDOW_SIZE))))
      (ts ++ (res.tokens ++ [LDPair.EndOfBlock])) := by
  have hW : WINDOW_SIZE = 32768 := rfl
  have hEn2W : En = WINDOW_SIZE * 2 := by omega
  have hcs2lt : st.current_start + WINDOW_SIZE < data.length := by omega
  have hblen2W : 2 * WINDOW_SIZE ≤ buffer.length := by omega
  obtain ⟨E2, hE2⟩ : ∃ x, x = min (st.current_start + WINDOW_SIZE +
      WINDOW_SIZE + 2) data.length := ⟨_, rfl⟩
  obtain ⟨D, hD⟩ : ∃ d, d = (data.drop (st.current_start + WINDOW_SIZE)).take
      (E2 - (st.current_start + WINDOW_SIZE)) := ⟨_, rfl⟩
  rw [show min (st.current_start + WINDOW_SIZE + WINDOW_SIZE + 2)
      data.length = E2 from hE2.symm]
  rw [show (data.drop (st.current_start + WINDOW_SIZE)).take
      (E2 - (st.current_start + WINDOW_SIZE)) = D from hD.symm]
  have hE2le : E2 ≤ data.length := by
    rw [hE2]
    exact Nat.min_le_right _ _
  have hDlen : D.length = E2 - (st.current_start + WINDOW_SIZE) := by
    rw [hD, List.length_take, List.length_drop]
    exact Nat.min_eq_left (Nat.sub_le_sub_right hE2le _)
  have hDle : D.length ≤ buffer.length - WINDOW_SIZE := by
    rw [hDlen, hE2, hblen]
    clear hdecfull htvfull hht hcorr hfin hEn hEn2W hE2le
    omega
  have hbuf2len : (slide_buffer buffer D).length = buffer.length :=
    slide_buffer_length hblen2W hDle
  refine ⟨?_, ?_, ?_, ?_⟩
  · rw [hbuf2len, hblen]
  · intro h
    dsimp only [] at h
    exact (Bool.false_ne_true h).elim
  · intro _ _
    dsimp only []
    refine ⟨by omega, by omega, h500, ?_, ?_, ?_, ?_⟩
    · intro i hi
      rw [hbuf2len] at hi
      have hi2 : i < min buffer.length
          (data.length - st.current_start) := by
        rw [show st.current_start + WINDOW_SIZE - WINDOW_SIZE =
          st.current_start by omega] at hi
        exact hi
      by_cases hiW : i < WINDOW_SIZE
      · rw [slide_buffer_getD_low hblen2W hiW,
          hcorr (WINDOW_SIZE + i) (by omega),
          show st.current_start - WINDOW_SIZE + (WINDOW_SIZE + i) =
            st.current_start + i by omega,
          show st.current_start + WINDOW_SIZE - WINDOW_SIZE + i =
            st.current_start + i by omega]
      · by_cases hiD : i - WINDOW_SIZE < D.length
        · rw [show i = WINDOW_SIZE + (i - WINDOW_SIZE) by omega,
            slide_buffer_getD_mid hblen2W hiD, hD,
            getD_take_lt (by rw [hDlen] at hiD; omega), getD_drop,
            show st.current_start + WINDOW_SIZE + (i - WINDOW_SIZE) =
              st.current_start + i by omega,
            show st.current_start + WINDOW_SIZE - WINDOW_SIZE +
              (WINDOW_SIZE + (i - WINDOW_SIZE)) =
                st.current_start + i by omega]
        · exfalso
          rw [hDlen] at hiD
          omega
    · have hsl := htpre_slide (n := WINDOW_SIZE) hht
      rw [hEn2W, show WINDOW_SIZE * 2 - WINDOW_SIZE = WINDOW_SIZE
        by omega] at hsl
      exact hsl
    · rw [hdecfull, hEn2W]
      congr 1
    · rw [htvfull, hEn2W]
      congr 2
  · intro h
    dsimp only [] at h
    exact (Bool.false_ne_true h).elim

/-- One driver call in the steady state preserves the invariant. -/
theorem block_step_steady (data : List Nat) (st : LZ77State)
    (buffer : List Nat) (ts : List LDPair) (hd2 : 2 ≤ data.length)
    (hinv : DInv data st buffer ts) (hnl : st.is_last_block = false)
    (hfwf : st.is_first_window = false) :
    ∃ st2 buf2 Δ, lz77_compress_block data st buffer = some (st2, buf2, Δ) ∧
      DInv data st2 buf2 (ts ++ Δ) ∧ st2.is_first_window = false ∧
      (st2.is_last_block = false →
        st.current_start + 1 ≤ st2.current_start) := by
  obtain ⟨hblen, hfirst, hsteady, hlastinv⟩ := hinv
  have hW : WINDOW_SIZE = 32768 := rfl
  rw [lz77_compress_block]
  rw [if_neg (show ¬ st.is_first_window = true from by
    rw [hfwf]; exact Bool.false_ne_true)]
  obtain ⟨hcsW, hcslen, h500, hcorr, hpre, hdect, htvt⟩ := hsteady hfwf hnl
  rw [hnl]
  set En := min (WINDOW_SIZE * 2)
    (data.length - (st.current_start - WINDOW_SIZE)) with hEn
  have hEnW : WINDOW_SIZE ≤ En := by omega
  have hEnbuf : En ≤ buffer.length := by omega
  obtain ⟨res, hres, hht, hdec, htv⟩ := process_chunk_spec buffer
    WINDOW_SIZE En st.hash_table (by omega) hEnW hpre
  simp only [hres]
  have hE : min buffer.length En = En := by omega
  rw [hE] at hht hdec htv
  have houtlen : (data.take st.current_start).length = st.current_start := by
    rw [List.length_take]
    omega
  have halout : Aligned buffer (data.take st.current_start) WINDOW_SIZE := by
    intro j h1 hj
    rw [houtlen, getD_take_lt (by omega)]
    exact (hcorr j (by omega)).symm
  have hchdec : ∀ ll, decompress_lz77_loop res.tokens ll
      (data.take st.current_start) =
      data.take (st.current_start + (En - WINDOW_SIZE)) := by
    intro ll
    rw [hdec _ ll halout (by rw [houtlen]; omega)]
    have hsl : sliceD buffer WINDOW_SIZE En =
        sliceD data st.current_start
          (st.current_start + (En - WINDOW_SIZE)) := by
      have hcc : ∀ k, k < En - WINDOW_SIZE →
          buffer.getD (WINDOW_SIZE + k) 0 =
            data.getD (st.current_start + k) 0 := by
        intro k hk
        rw [hcorr (WINDOW_SIZE + k) (by omega),
          show st.current_start - WINDOW_SIZE + (WINDOW_SIZE + k) =
            st.current_start + k by omega]
      have hbn : WINDOW_SIZE + (En - WINDOW_SIZE) ≤ buffer.length := by
        omega
      have hdn : st.current_start + (En - WINDOW_SIZE) ≤ data.length := by
        omega
      have := sliceD_eq_of_corr hbn hdn hcc
      rw [show WINDOW_SIZE + (En - WINDOW_SIZE) = En by omega] at this
      exact this
    rw [hsl, take_append_sliceD (by omega)]
  have hdecfull : decompress_lz77_loop
      (ts ++ (res.tokens ++ [LDPair.EndOfBlock])) 0 [] =
      data.take (st.current_start + (En - WINDOW_SIZE)) := by
    rw [dec_append, hdect, dec_snoc_eob, hchdec]
  have htvfull : tokens_valid_from
      (ts ++ (res.tokens ++ [LDPair.EndOfBlock])) 0 =
      some (st.current_start + (En - WINDOW_SIZE)) := by
    rw [tv_append ts _ 0 st.current_start htvt]
    apply tv_snoc_eob
    rw [htv st.current_start (by omega)]
  by_cases hfin : data.length - (st.current_start - WINDOW_SIZE) ≤ En
  · rw [if_pos hfin]
    have hcov : st.current_start + (En - WINDOW_SIZE) = data.length := by
      omega
    refine ⟨_, _, _, rfl, ⟨hblen, ?_, ?_, ?_⟩, rfl, ?_⟩
    · intro h
      dsimp only [] at h
      exact (Bool.false_ne_true h).elim
    · intro _ h2
      dsimp only [] at h2
      simp at h2
    · intro _
      rw [hcov] at hdecfull htvfull
      exact ⟨by rw [hdecfull]; simp, htvfull⟩
    · intro h
      dsimp only [] at h
      simp at h
  · rw [if_neg hfin]
    refine ⟨_, _, _, rfl, ?_, rfl, ?_⟩
    · exact block_step_slide data st buffer ts res En hblen hcsW h500 hcorr
        hEn hht hdecfull htvfull hfin
    · intro _
      dsimp only []
      omega

/-- One driver call from a non-terminal state: it succeeds and preserves
the invariant, leaving the first-window phase and advancing
`current_start` unless it marked the last block. -/
theorem block_step (data : List Nat) (st : LZ77State) (buffer : List Nat)
    (ts : List LDPair) (hd2 : 2 ≤ data.length)
    (hinv : DInv data st buffer ts) (hnl : st.is_last_block = false) :
    ∃ st2 buf2 Δ, lz77_compress_block data st buffer = some (st2, buf2, Δ) ∧
      DInv data st2 buf2 (ts ++ Δ) ∧ st2.is_first_window = false ∧
      (st2.is_last_block = false →
        st.current_start + 1 ≤ st2.current_start) := by
  by_cases hfw : st.is_first_window = true
  · exact block_step_first data st buffer ts hd2 hinv hnl hfw
  · exact block_step_steady data st buffer ts hd2 hinv hnl
      (by revert hfw; cases st.is_first_window <;> simp)

/-- The driver loop reaches the last block within its fuel and the full
stream decodes to the input and validates. -/
theorem compress_loop_spec (data : List Nat) (hd2 : 2 ≤ data.length) :
    ∀ fuel st buffer ts, DInv data st buffer ts →
      (st.is_last_block = false → data.length < st.current_start + fuel) →
      ∃ out, lz77_compress_loop data fuel st buffer ts = some out ∧
        decompress_lz77_loop out 0 [] = data ∧
        tokens_valid_from out 0 = some data.length := by
  intro fuel
  induction fuel with
  | zero =>
    intro st buffer ts hinv hfuel
    rw [lz77_compress_loop]
    by_cases hlast : st.is_last_block = true
    · rw [if_pos hlast]
      exact ⟨ts, rfl, (hinv.2.2.2 hlast).1, (hinv.2.2.2 hlast).2⟩
    · have hlast2 : st.is_last_block = false := by
        revert hlast
        cases st.is_last_block <;> simp
      have hprog := hfuel hlast2
      by_cases hfw : st.is_first_window = true
      · have := (hinv.2.1 hfw).1
        omega
      · have hfwf : st.is_first_window = false := by
          revert hfw
          cases st.is_first_window <;> simp
        have := (hinv.2.2.1 hfwf hlast2).2.1
        omega
  | succ fuel ih =>
    intro st buffer ts hinv hfuel
    rw [lz77_compress_loop]
    by_cases hlast : st.is_last_block = true
    · rw [if_pos hlast]
      exact ⟨ts, rfl, (hinv.2.2.2 hlast).1, (hinv.2.2.2 hlast).2⟩
    · have hlast2 : st.is_last_block = false := by
        revert hlast
        cases st.is_last_block <;> simp
      rw [if_neg hlast]
      obtain ⟨st2, buf2, Δ, hblk, hinv2, _, hprog⟩ :=
        block_step data st buffer ts hd2 hinv hlast2
      rw [hblk]
      apply ih st2 buf2 (ts ++ Δ) hinv2
      intro hl2
      have := hprog hl2
      have := hfuel hlast2
      omega

/-- Top-level contract of `lz77_compress`: it succeeds, and the output
stream both decodes to the original input and validates. -/
theorem lz77_compress_spec (data : List Nat) (hd2 : 2 ≤ data.length) :
    ∃ out, lz77_compress data = some out ∧
      decompress_lz77 out = data ∧
      tokens_valid_from out 0 = some data.length := by
  have hinv : DInv data (LZ77State.new data) (create_buffer data) [] := by
    refine ⟨create_buffer_length data, ?_, ?_, ?_⟩
    · intro _
      exact ⟨rfl, rfl, rfl, rfl, htpre_init _ _ 0⟩
    · intro h _
      cases h
    · intro h
      cases h
  obtain ⟨out, hloop, hdec, htv⟩ := compress_loop_spec data hd2
    (data.length + 2) (LZ77State.new data) (create_buffer data) [] hinv
    (by intro _; dsimp only [LZ77State.new]; omega)
  exact ⟨out, hloop, hdec, htv⟩

/-! ## Claim theorems -/

/-- C1 (round-trip): for every input byte sequence of length ≥ 2,
decoding the token stream produced by `lz77_compress` — appending each
`Literal` byte and replaying each `Length`/`Distance` pair against the
already-decoded output — reproduces the input exactly.  (`lz77_compress`
also provably succeeds: the mapped `Option` is `some`.) -/
theorem claim_C1_roundtrip (data : List Nat) (h : 2 ≤ data.length) :
    Option.map decompress_lz77 (lz77_compress data) = some data := by
  obtain ⟨out, hc, hd, _⟩ := lz77_compress_spec data h
  rw [hc, Option.map_some', hd]

theorem claim_C1_roundtrip_witness :
    2 ≤ ([1, 2] : List Nat).length ∧
    Option.map decompress_lz77 (lz77_compress [1, 2]) = some [1, 2] :=
  ⟨by decide, claim_C1_roundtrip [1, 2] (by decide)⟩

/-- C2 (token bounds): on every input of length ≥ 2, the emitted stream
passes the positional validator: every `Length` value lies in
`[MIN_MATCH, MAX_MATCH] = [3, 258]`, every `Distance` value lies in
`[1, WINDOW_SIZE] = [1, 32768]` and does not exceed the number of bytes
already decoded at the point the pair is emitted (and the final decoded
count is the input length). -/
theorem claim_C2_token_bounds (data : List Nat) (h : 2 ≤ data.length) :
    (lz77_compress data).bind (fun ts => tokens_valid_from ts 0) =
      some data.length := by
  obtain ⟨out, hc, _, htv⟩ := lz77_compress_spec data h
  rw [hc, Option.some_bind, htv]

theorem claim_C2_token_bounds_witness :
    2 ≤ ([1, 2] : List Nat).length ∧
    (lz77_compress [1, 2]).bind (fun ts => tokens_valid_from ts 0) =
      some ([1, 2] : List Nat).length :=
  ⟨by decide, claim_C2_token_bounds [1, 2] (by decide)⟩

/-- C8 (pairing): in every stream produced by `lz77_compress`, each
`Length` token is immediately followed by exactly one `Distance` token,
each `Distance` is immediately preceded by its `Length`, and hence no
`EndOfBlock` ever separates a pair. -/
theorem claim_C8_pairing (data : List Nat) (h : 2 ≤ data.length) :
    Option.map well_paired (lz77_compress data) = some true := by
  obtain ⟨out, hc, _, htv⟩ := lz77_compress_spec data h
  rw [hc, Option.map_some', wp_of_tv out 0 data.length htv]

theorem claim_C8_pairing_witness :
    2 ≤ ([1, 2] : List Nat).length ∧
    Option.map well_paired (lz77_compress [1, 2]) = some true :=
  ⟨by decide, claim_C8_pairing [1, 2] (by decide)⟩

/-- C9 (slide_buffer frame): for every buffer of length ≥ 2·WINDOW_SIZE
and every replacement slice `d` fitting into the upper half,
`slide_buffer` keeps the length, copies the old upper window into the
lower half, overwrites exactly the first `d.length` bytes of the upper
half with `d`, and leaves every upper-half byte at offset ≥ `d.length`
unchanged. -/
theorem claim_C9_slide_frame (buffer d : List Nat)
    (hb : 2 * WINDOW_SIZE ≤ buffer.length)
    (hd : d.length ≤ buffer.length - WINDOW_SIZE) :
    (slide_buffer buffer d).length = buffer.length ∧
    (∀ i, i < WINDOW_SIZE →
      (slide_buffer buffer d).getD i 0 = buffer.getD (WINDOW_SIZE + i) 0) ∧
    (∀ j, j < d.length →
      (slide_buffer buffer d).getD (WINDOW_SIZE + j) 0 = d.getD j 0) ∧
    (∀ j, d.length ≤ j →
      (slide_buffer buffer d).getD (WINDOW_SIZE + j) 0 =
        buffer.getD (WINDOW_SIZE + j) 0) :=
  ⟨slide_buffer_length hb hd,
   fun _ hi => slide_buffer_getD_low hb hi,
   fun _ hj => slide_buffer_getD_mid hb hj,
   fun _ hj => slide_buffer_getD_high hb hj⟩

theorem claim_C9_slide_frame_witness :
    2 * WINDOW_SIZE ≤ (List.replicate 65536 (0 : Nat)).length ∧
    (slide_buffer (List.replicate 65536 (0 : Nat)) [1, 2]).length =
      (List.replicate 65536 (0 : Nat)).length :=
  ⟨by rw [List.length_replicate]; decide,
   (claim_C9_slide_frame (List.replicate 65536 0) [1, 2]
      (by rw [List.length_replicate]; decide)
      (by rw [List.length_replicate]; decide)).1⟩

/-- C10 (clamping, amended): when `start + 2 ≤ data.length` AND
`start ≤ end`, `process_chunk` behaves exactly as if called with the end
clamped to `min end data.length`, and (given a well-formed table) it
succeeds — no access goes out of bounds.  The extra hypothesis
`start ≤ end` is needed: without it the Rust slice `&data[start..end]`
panics (see the counterexample). -/
theorem claim_C10_clamp (data : List Nat) (start endr : Nat)
    (t : ChainedHashTable) (h2 : start + 2 ≤ data.length)
    (hse : start ≤ endr) :
    process_chunk data start endr t =
      process_chunk data start (min endr data.length) t ∧
    (HtPre t start → (process_chunk data start endr t).isSome = true) := by
  constructor
  · simp only [process_chunk]
    rw [show min data.length (min endr data.length) = min data.length endr
      from by omega]
  · intro hpre
    obtain ⟨res, heq, -⟩ := process_chunk_spec data start endr t h2 hse hpre
    rw [heq]
    rfl

theorem claim_C10_clamp_witness :
    (0 + 2 ≤ ([5, 6, 7] : List Nat).length ∧ 0 ≤ 100 ∧
      HtPre (ChainedHashTable.from_starting_values 5 6) 0) ∧
    process_chunk [5, 6, 7] 0 100 (ChainedHashTable.from_starting_values 5 6) =
      process_chunk [5, 6, 7] 0 (min 100 ([5, 6, 7] : List Nat).length)
        (ChainedHashTable.from_starting_values 5 6) ∧
    (process_chunk [5, 6, 7] 0 100
      (ChainedHashTable.from_starting_values 5 6)).isSome = true := by
  have h := claim_C10_clamp [5, 6, 7] 0 100
    (ChainedHashTable.from_starting_values 5 6) (by decide) (by decide)
  exact ⟨⟨by decide, by decide, htpre_init 5 6 0⟩, h.1, h.2 (htpre_init 5 6 0)⟩

/-- C10, counterexample to the unqualified claim: with `start = 1`,
`end = 0` (and `start + 2 ≤ data.length`), the clamped end is 0 < start,
and the Rust slice `&data[start..end]` panics instead of processing the
empty range — modelled as `none`. -/
theorem claim_C10_counterexample :
    1 + 2 ≤ ([0, 0, 0, 0] : List Nat).length ∧
    process_chunk [0, 0, 0, 0] 1 0
      (ChainedHashTable.from_starting_values 0 0) = none :=
  ⟨by decide, rfl⟩

/-- C5 (early exits, amended): `longest_match` returns (0, 0) with no
chain walk when `position = 0`, when `MAX_MATCH ≤ prev_length`, or when
`data.length - position ≤ prev_length` (i.e. the remaining input is
*at most* — not only strictly shorter than — `prev_length`); the walk is
reached exactly when none of these holds. -/
theorem claim_C5_guards (data : List Nat) (t : ChainedHashTable)
    (position prev_length : Nat) :
    ((position = 0 ∨ MAX_MATCH ≤ prev_length ∨
        data.length ≤ position + prev_length) →
      longest_match data t position prev_length = some ⟨0, 0, 0, []⟩) ∧
    (lm_reaches_walk data position prev_length = true ↔
      ¬(position = 0 ∨ MAX_MATCH ≤ prev_length ∨
        data.length ≤ position + prev_length)) := by
  constructor
  · intro h
    exact (longest_match_early data t position prev_length h).1
  · simp only [lm_reaches_walk, decide_eq_true_eq]

/-- C5, counterexample to the claim's strict reading: at
`data = [0,0,0,0]`, `position = 2`, `prev_length = 2`, none of the
claim's three conditions holds (position ≠ 0, prev_length ≠ MAX_MATCH,
and the remaining input `4 - 2 = 2` is *not* shorter than
`prev_length = 2`), yet the function returns (0, 0) without walking the
chain. -/
theorem claim_C5_counterexample :
    (¬ (2 : Nat) = 0 ∧ ¬ MAX_MATCH ≤ 2 ∧
      ¬ ([0, 0, 0, 0] : List Nat).length - 2 < 2) ∧
    longest_match [0, 0, 0, 0] (ChainedHashTable.from_starting_values 0 0)
      2 2 = some ⟨0, 0, 0, []⟩ ∧
    lm_reaches_walk [0, 0, 0, 0] 2 2 = false := by
  refine ⟨by decide, ?_, by decide⟩
  exact (longest_match_early [0, 0, 0, 0] _ 2 2 (by decide)).1

theorem claim_C5_guards_witness :
    longest_match [0, 0, 0, 1, 2] (ChainedHashTable.from_starting_values 0 0)
      0 0 = some ⟨0, 0, 0, []⟩ ∧
    (lm_reaches_walk [0, 0, 0, 1, 2] 0 0 = true ↔
      ¬((0 : Nat) = 0 ∨ MAX_MATCH ≤ 0 ∨
        ([0, 0, 0, 1, 2] : List Nat).length ≤ 0 + 0)) :=
  ⟨(claim_C5_guards [0, 0, 0, 1, 2] _ 0 0).1 (Or.inl rfl),
   (claim_C5_guards [0, 0, 0, 1, 2]
      (ChainedHashTable.from_starting_values 0 0) 0 0).2⟩

/-- `longest_match` only ever returns a visited-position list that is
strictly decreasing, provided every chain link points strictly below its
key (or to 0). -/
theorem longest_match_chain (data : List Nat) (t : ChainedHashTable)
    (pos pl : Nat) (r : LMRes)
    (hdec : ∀ k, t.prevf k < k ∨ t.prevf k = 0)
    (h : longest_match data t pos pl = some r) :
    List.Chain' (fun x y => y < x) r.vis := by
  rw [longest_match] at h
  by_cases g1 : pos = 0 ∨ MAX_MATCH ≤ pl
  · rw [if_pos g1] at h
    cases h
    exact List.chain'_nil
  · rw [if_neg g1] at h
    by_cases g2 : data.length ≤ pos + pl
    · rw [if_pos g2] at h
      cases h
      exact List.chain'_nil
    · rw [if_neg g2] at h
      simp only [] at h
      by_cases g3 : t.get_prev t.current_head = t.current_head
      · rw [if_pos g3] at h
        cases h
        exact List.chain'_nil
      · rw [if_neg g3] at h
        rcases h0 : lm_loop data t.prevf pos
            (if WINDOW_SIZE < pos then pos - WINDOW_SIZE else 0)
            (min (data.length - pos) MAX_MATCH)
            (t.get_prev t.current_head) 4097 (t.get_prev t.current_head)
            pl 0 0 [] with _ | r0
        · rw [h0] at h
          cases h
        · simp only [h0] at h
          have hch := lm_loop_chain data t.prevf pos
            (if WINDOW_SIZE < pos then pos - WINDOW_SIZE else 0)
            (min (data.length - pos) MAX_MATCH)
            (t.get_prev t.current_head) hdec 4097
            (t.get_prev t.current_head) pl 0 0 [] r0
            (List.chain'_singleton _) h0
          by_cases hfin : pl < r0.length
          · rw [if_pos hfin] at h
            cases h
            exact hch
          · rw [if_neg hfin] at h
            cases h
            exact hch

/-- C3 (longest_match contract): for a table whose chain links point
strictly below the search position and strictly below their own keys
(true of every table the compressor builds), `longest_match` returns
either (0, 0) — and then no visited chain position matches longer than
`prev_length` — or a pair with `prev_length < length`, the `length`
bytes at `position` equal to those `distance` back, `length` maximal
over all visited chain positions (so of two candidates with different
lengths the longer wins, whatever its distance), and the returned
candidate the first visited one achieving that length; since the visit
order is strictly decreasing in position, i.e. increasing in distance,
ties go to the smallest distance. -/
theorem claim_C3_contract (data : List Nat) (t : ChainedHashTable)
    (position prev_length : Nat) (r : LMRes)
    (hwf : ∀ k, t.prevf k < position ∨ t.prevf k = 0)
    (hdec : ∀ k, t.prevf k < k ∨ t.prevf k = 0)
    (h : longest_match data t position prev_length = some r) :
    ((r.length = 0 ∧ r.dist = 0 ∧
        ∀ x ∈ r.vis, get_match_length data position x ≤ prev_length) ∨
      (prev_length < r.length ∧
        1 ≤ r.dist ∧ r.dist + 1 ≤ position ∧ r.dist ≤ WINDOW_SIZE ∧
        position + r.length ≤ data.length ∧ r.length ≤ MAX_MATCH ∧
        (∀ k, k < r.length →
          data.getD (position + k) 0 = data.getD (position - r.dist + k) 0) ∧
        (∀ x ∈ r.vis, get_match_length data position x ≤ r.length) ∧
        r.vis.find? (fun x =>
            decide (r.length ≤ get_match_length data position x)) =
          some (position - r.dist))) ∧
    List.Chain' (fun x y => y < x) r.vis := by
  obtain ⟨r2, hr2, hsp⟩ := longest_match_spec data t position prev_length hwf
  rw [h] at hr2
  injection hr2 with hr2
  subst hr2
  refine ⟨?_, longest_match_chain data t position prev_length _ hdec h⟩
  rcases hsp with ⟨h1, h2, h3⟩ | ⟨h1, ⟨g1, g2, g3, g4, g5, g6⟩, h3, h4⟩
  · exact Or.inl ⟨h1, h2, h3⟩
  · exact Or.inr ⟨h1, g1, g2, g3, g4, g5, g6, h3, h4⟩

theorem claim_C3_contract_witness :
    longest_match [9, 9, 9, 9, 9, 9]
        (⟨0, fun _ => 3, fun k => if k ≤ 3 then k - 1 else 0⟩ :
          ChainedHashTable) 3 0 = some ⟨3, 1, 0, [2]⟩ ∧
    List.Chain' (fun x y => y < x) [2] := by
  have heq : longest_match [9, 9, 9, 9, 9, 9]
      (⟨0, fun _ => 3, fun k => if k ≤ 3 then k - 1 else 0⟩ :
        ChainedHashTable) 3 0 = some ⟨3, 1, 0, [2]⟩ := by decide
  refine ⟨heq, ?_⟩
  exact (claim_C3_contract [9, 9, 9, 9, 9, 9] _ 3 0 ⟨3, 1, 0, [2]⟩
    (fun k => by
      show (if k ≤ 3 then k - 1 else 0) < 3 ∨ (if k ≤ 3 then k - 1 else 0) = 0
      split <;> omega)
    (fun k => by
      show (if k ≤ 3 then k - 1 else 0) < k ∨ (if k ≤ 3 then k - 1 else 0) = 0
      split <;> omega)
    heq).2

/-- C6, counterexample: in the chunk [0, 8) over eight zero bytes, the
final two bytes of the range are NOT emitted as literals — they are
covered by the match `Length 6 / Distance 1` found at position 2, so the
stream ends with a length/distance pair, not with two `Literal` tokens. -/
theorem claim_C6_counterexample :
    Option.map PCAcc.tokens (process_chunk (List.replicate 8 0) 0 8
        (ChainedHashTable.from_starting_values 0 0)) =
      some [LDPair.Literal 0, LDPair.Literal 0, LDPair.Length 6,
        LDPair.Distance 1] ∧
    [LDPair.Literal 0, LDPair.Literal 0, LDPair.Length 6,
        LDPair.Distance 1].reverse.take 2 =
      [LDPair.Distance 1, LDPair.Length 6] :=
  ⟨by decide, by decide⟩

/-- C6 (chunk tail, amended): what is true of the last bytes of a chunk
is keyed to the *data* end, not the range end: (i) positions lacking two
bytes of hash lookahead (`p + 2 ≥ data.length`) are never hashed and
never searched; (ii) once the loop reaches a position within 2 bytes of
the data end, it flushes any held-back literal and emits every remaining
byte of the range as a `Literal`, leaving the hash table untouched.  The
final 2 bytes of a range are emitted as literals only when the range end
coincides with the data end AND no earlier match already covers them
(see the counterexample). -/
theorem claim_C6_tail (data : List Nat) :
    (∀ start endr (t : ChainedHashTable) (p : Nat),
      (p ∈ ((process_chunk data start endr t).map PCAcc.hashed).getD [] →
        p + 2 < data.length) ∧
      (p ∈ ((process_chunk data start endr t).map PCAcc.searched).getD [] →
        p + 2 < data.length)) ∧
    (∀ endc fuel pos pB pL pD (add : Bool) (t0 : ChainedHashTable)
        (ts0 : List LDPair) (hs0 ss0 : List Nat),
      endc ≤ data.length → data.length ≤ pos + 2 → pos ≤ endc →
      endc < pos + fuel →
      process_chunk_loop data endc fuel pos pB pL pD add ⟨ts0, t0, hs0, ss0⟩ =
        some ⟨ts0 ++ (if add then [LDPair.Literal pB] else []) ++
          (sliceD data pos endc).map LDPair.Literal, t0, hs0, ss0⟩) := by
  constructor
  · intro start endr t p
    rcases hpc : process_chunk data start endr t with _ | res
    · constructor
      · intro hp
        simp at hp
      · intro hp
        simp at hp
    · simp only [process_chunk] at hpc
      by_cases hg : start ≤ min data.length endr ∧ start + 2 ≤ data.length
      · rw [if_pos hg] at hpc
        have hins := pcl_instr data (min data.length endr)
          (min data.length endr - start + 1) start 0 (MIN_MATCH - 1) 0 false
          t [] [] [] res hpc
        constructor
        · intro hp
          simp only [Option.map_some', Option.getD_some] at hp
          rcases hins.1 p hp with h | h
          · cases h
          · exact h
        · intro hp
          simp only [Option.map_some', Option.getD_some] at hp
          rcases hins.2 p hp with h | h
          · cases h
          · exact h
      · rw [if_neg hg] at hpc
        cases hpc
  · intro endc fuel pos pB pL pD add t0 ts0 hs0 ss0 hendc htail hpe hfuel
    exact pcl_tail data endc hendc fuel pos pB pL pD add t0 ts0 hs0 ss0
      htail hpe hfuel

theorem claim_C6_tail_witness :
    0 + 2 < ([1, 2, 3, 4] : List Nat).length ∧
    process_chunk_loop [1, 2, 3] 3 4 1 7 0 0 true
        ⟨[], ChainedHashTable.from_starting_values 1 2, [], []⟩ =
      some ⟨[] ++ (if true then [LDPair.Literal 7] else []) ++
        (sliceD [1, 2, 3] 1 3).map LDPair.Literal,
        ChainedHashTable.from_starting_values 1 2, [], []⟩ :=
  ⟨((claim_C6_tail [1, 2, 3, 4]).1 0 4
      (ChainedHashTable.from_starting_values 1 2) 0).1 (by decide),
   (claim_C6_tail [1, 2, 3]).2 3 4 1 7 0 0 true
     (ChainedHashTable.from_starting_values 1 2) [] [] []
     (by decide) (by decide) (by decide) (by decide)⟩

/-- A chain with a 3-cycle (9 → 8 → 7 → 6 → 7 → 6 → …) that never
returns to the starting head 8: the walk only stops when its iteration
budget runs out. -/
def c7prev : Nat → Nat := fun k =>
  if k = 9 then 8 else if k = 8 then 7 else if k = 7 then 6
  else if k = 6 then 7 else 0

def c7data : List Nat := [0, 0, 0, 0, 0, 0, 0, 0, 0, 0, 0, 1]

def c7ht : ChainedHashTable := ⟨0, fun _ => 9, c7prev⟩

/-- On `c7data`/`c7prev` from position 9 with best length 2, every loop
entry at a chain position in {7, 6, 8} fails the byte check
(`c7data[11] = 1 ≠ 0`), hops once and continues in the cycle, so the
walk consumes all its fuel, adding one hop per unit. -/
theorem c7_loop (fuel : Nat) :
    ∀ c h v, c = 7 ∨ c = 6 ∨ c = 8 →
      ∃ vr, lm_loop c7data c7prev 9 0 3 8 fuel c 2 0 h v =
        some ⟨2, 0, h + fuel, vr⟩ := by
  induction fuel with
  | zero =>
    intro c h v _
    exact ⟨v, rfl⟩
  | succ fuel ih =>
    intro c h v hc
    rcases hc with rfl | rfl | rfl
    · obtain ⟨vr, hvr⟩ := ih 6 (h + 1) (v ++ [7]) (Or.inr (Or.inl rfl))
      rw [show h + 1 + fuel = h + (fuel + 1) from by omega] at hvr
      refine ⟨vr, ?_⟩
      rw [lm_loop, if_pos ⟨Nat.zero_le 7, by decide⟩]
      simp only [show c7data[9 + 2]? = some 1 from rfl,
        show c7data[7 + 2]? = some 0 from rfl]
      rw [if_neg (by decide : ¬(1 : Nat) = 0)]
      dsimp only
      rw [if_neg (by simp), show c7prev 7 = 6 from rfl,
        if_neg (by decide : ¬(6 : Nat) = 8)]
      exact hvr
    · obtain ⟨vr, hvr⟩ := ih 7 (h + 1) (v ++ [6]) (Or.inl rfl)
      rw [show h + 1 + fuel = h + (fuel + 1) from by omega] at hvr
      refine ⟨vr, ?_⟩
      rw [lm_loop, if_pos ⟨Nat.zero_le 6, by decide⟩]
      simp only [show c7data[9 + 2]? = some 1 from rfl,
        show c7data[6 + 2]? = some 0 from rfl]
      rw [if_neg (by decide : ¬(1 : Nat) = 0)]
      dsimp only
      rw [if_neg (by simp), show c7prev 6 = 7 from rfl,
        if_neg (by decide : ¬(7 : Nat) = 8)]
      exact hvr
    · obtain ⟨vr, hvr⟩ := ih 7 (h + 1) (v ++ [8]) (Or.inl rfl)
      rw [show h + 1 + fuel = h + (fuel + 1) from by omega] at hvr
      refine ⟨vr, ?_⟩
      rw [lm_loop, if_pos ⟨Nat.zero_le 8, by decide⟩]
      simp only [show c7data[9 + 2]? = some 1 from rfl,
        show c7data[8 + 2]? = some 0 from rfl]
      rw [if_neg (by decide : ¬(1 : Nat) = 0)]
      dsimp only
      rw [if_neg (by simp), show c7prev 8 = 7 from rfl,
        if_neg (by decide : ¬(7 : Nat) = 8)]
      exact hvr

/-- C7, counterexample to the 4096 bound: with the cyclic chain `c7ht`
(which never revisits its starting head), the walk from position 9 with
`prev_length = 2` performs 4097 chain hops — the loop guard
`iters <= 4096` admits iteration numbers 0 through 4096 inclusive. -/
theorem claim_C7_counterexample :
    Option.map LMRes.hops (longest_match c7data c7ht 9 2) = some 4097 ∧
    ¬ (4097 : Nat) ≤ 4096 := by
  refine ⟨?_, by decide⟩
  rw [longest_match, if_neg (by decide), if_neg (by decide)]
  simp only []
  rw [if_neg (by decide : ¬c7ht.get_prev c7ht.current_head = c7ht.current_head)]
  rw [show (if WINDOW_SIZE < 9 then 9 - WINDOW_SIZE else 0) = 0 from rfl,
    show min (c7data.length - 9) MAX_MATCH = 3 from rfl,
    show c7ht.get_prev c7ht.current_head = 8 from rfl,
    show c7ht.prevf = c7prev from rfl]
  obtain ⟨vr, hvr⟩ := c7_loop 4097 8 0 [] (Or.inr (Or.inr rfl))
  simp only [hvr]
  rw [if_neg (by decide : ¬(2 : Nat) < 2)]
  rw [Option.map_some']

/-- C7 (hop bound, amended): the chain walk always terminates, and a
`longest_match` call performs at most 4097 chain hops (the guard
`iters <= 4096` allows one more hop than the spec's 4096); every visited
chain position lies at or above the window floor and is nonzero, and the
walk also stops on reaching the maximum achievable length or returning
to its starting head (those exits are what keeps `hops` below the
budget). -/
theorem claim_C7_hops (data : List Nat) (t : ChainedHashTable)
    (position prev_length : Nat) (r : LMRes)
    (h : longest_match data t position prev_length = some r) :
    r.hops ≤ 4097 ∧
    ∀ x ∈ r.vis,
      (if WINDOW_SIZE < position then position - WINDOW_SIZE else 0) ≤ x ∧
        x ≠ 0 :=
  longest_match_hops data t position prev_length r h

theorem claim_C7_hops_witness :
    longest_match [0, 0, 0, 0] (ChainedHashTable.from_starting_values 0 0)
        2 2 = some ⟨0, 0, 0, []⟩ ∧
    (⟨0, 0, 0, []⟩ : LMRes).hops ≤ 4097 :=
  ⟨by decide,
   (claim_C7_hops [0, 0, 0, 0] (ChainedHashTable.from_starting_values 0 0)
      2 2 ⟨0, 0, 0, []⟩ (by decide)).1⟩

/-- A single `process_chunk` call emits no `EndOfBlock` token: block
terminators come only from the driver. -/
theorem process_chunk_no_eob (data : List Nat) (start endr : Nat)
    (t : ChainedHashTable) (res : PCAcc)
    (h : process_chunk data start endr t = some res) :
    count_eob res.tokens = 0 := by
  simp only [process_chunk] at h
  by_cases hg : start ≤ min data.length endr ∧ start + 2 ≤ data.length
  · rw [if_pos hg] at h
    rw [pcl_no_eob data (min data.length endr)
      (min data.length endr - start + 1) start 0 (MIN_MATCH - 1) 0 false t
      [] [] [] res h]
    rfl
  · rw [if_neg hg] at h
    cases h

/-- C4 (dead merge, code bug): in the non-first-window path the Rust
loop `for _ in 0..1 { … }` runs its body exactly once — the trailing
`if !next_block_merge { break; }` is dead, so the intended "repeat the
processing step one additional time" never happens.  Concretely: in any
steady state where `next_block_merge` holds (the remaining input past
`current_start` exceeds one window by 1..499 bytes), the call still
processes exactly one window, leaves `is_last_block` unchanged (false in
a run), advances `current_start` by exactly `WINDOW_SIZE`, and emits
exactly one block terminator — the short tail is NOT folded in and later
becomes its own block. -/
theorem claim_C4_merge_dead (data : List Nat) (st : LZ77State)
    (buffer : List Nat)
    (hfw : st.is_first_window = false)
    (hpre : HtPre st.hash_table WINDOW_SIZE)
    (hcsW : WINDOW_SIZE ≤ st.current_start)
    (hblen : WINDOW_SIZE + 2 ≤ buffer.length)
    (hm1 : WINDOW_SIZE < data.length - st.current_start)
    (hm2 : data.length - st.current_start - WINDOW_SIZE < 500) :
    ∃ st2 buf2 Δ, lz77_compress_block data st buffer = some (st2, buf2, Δ) ∧
      st2.is_last_block = st.is_last_block ∧
      st2.current_start = st.current_start + WINDOW_SIZE ∧
      count_eob Δ = 1 := by
  have hW : WINDOW_SIZE = 32768 := rfl
  have hfw2 : ¬ st.is_first_window = true := by
    rw [hfw]
    exact Bool.false_ne_true
  rw [lz77_compress_block, if_neg hfw2]
  set En := min (WINDOW_SIZE * 2)
    (data.length - (st.current_start - WINDOW_SIZE)) with hEn
  have hEnval : En = WINDOW_SIZE * 2 := by omega
  obtain ⟨res, hres, -, -, -⟩ := process_chunk_spec buffer WINDOW_SIZE En
    st.hash_table (by omega) (by omega) hpre
  simp only [hres]
  rw [if_neg (show ¬ data.length - (st.current_start - WINDOW_SIZE) ≤ En
    from by omega)]
  refine ⟨_, _, _, rfl, rfl, rfl, ?_⟩
  rw [count_eob_append, process_chunk_no_eob buffer WINDOW_SIZE En
    st.hash_table res hres]
  rfl

theorem claim_C4_merge_dead_witness :
    ∃ st2 buf2 Δ,
      lz77_compress_block (List.replicate 65636 0)
        ⟨ChainedHashTable.from_starting_values 0 0, 32768, false, false⟩
        (List.replicate 32772 0) = some (st2, buf2, Δ) ∧
      st2.is_last_block = false ∧
      st2.current_start = 32768 + WINDOW_SIZE ∧
      count_eob Δ = 1 :=
  claim_C4_merge_dead (List.replicate 65636 0)
    ⟨ChainedHashTable.from_starting_values 0 0, 32768, false, false⟩
    (List.replicate 32772 0) rfl (htpre_init 0 0 WINDOW_SIZE) (by decide)
    (by rw [List.length_replicate]; decide)
    (by rw [List.length_replicate]; decide)
    (by rw [List.length_replicate]; decide)
